import Mathlib

/-!
Verification development for the subroutine-injection checkpointing pass
(`ModuleTransformationPass.cpp` / `SubroutineInjection`).  The definitions
below are a shallow embedding of the pass: the LLVM IR objects the pass
manipulates (types, instructions, terminators, basic blocks, functions) are
modelled as inductive data, and each C++ routine cited by the claims is
translated into an executable Lean function over that data.
-/

set_option linter.unusedVariables false

namespace CkptPass

/-! ### Types

`Ty` models `llvm::Type` as far as the pass inspects it: `isPointerTy()`,
`getContainedType(0)` and `getNumContainedTypes()`.  Aggregates are modelled
by their number of contained types only, which is all the pass reads. -/

inductive Ty
  | i32 : Ty
  | ptr : Ty → Ty
  | agg : Nat → Ty
deriving DecidableEq, Repr

def Ty.isPointerTy : Ty → Bool
  | .ptr _ => true
  | _ => false

def Ty.numContainedTypes : Ty → Nat
  | .i32 => 0
  | .ptr _ => 1
  | .agg n => n

/-- `getContainedType(0)` as the pass uses it: the pointee of a pointer
(`containedType = isPointer ? valRawType->getContainedType(0) : valRawType`). -/
def Ty.containedType0 : Ty → Ty
  | .ptr t => t
  | t => t

/-! ### Instructions and terminators

Values are identified by numeric handles (standing for `llvm::Value*`
pointers).  An operand is either a value handle or an integer constant. -/

inductive Opnd
  | v : Nat → Opnd
  | c : Int → Opnd
deriving DecidableEq, Repr

inductive Inst
  | call : String → List Opnd → Inst
  | load : Nat → Ty → Opnd → Inst
  | gep : Nat → Opnd → Opnd → Inst
  | store : Opnd → Opnd → Inst
  | alloca : Nat → Ty → Inst
  | add : Nat → Opnd → Opnd → Inst
  | phi : Nat → Ty → List (Nat × Opnd) → Inst
  | other : Nat → List Opnd → Inst
deriving DecidableEq, Repr

/-- The value handle an instruction defines, if any. -/
def Inst.defId : Inst → Option Nat
  | .call _ _ => none
  | .load d _ _ => some d
  | .gep d _ _ => some d
  | .store _ _ => none
  | .alloca d _ => some d
  | .add d _ _ => some d
  | .phi d _ _ => some d
  | .other d _ => some d

def Inst.isPhiInst : Inst → Bool
  | .phi _ _ _ => true
  | _ => false

inductive Term
  | br : Nat → Term
  | condbr : Opnd → Nat → Nat → Term
  | switch : Opnd → Nat → List (Int × Nat) → Term
  | ret : Term
deriving DecidableEq, Repr

/-- Successor list of a terminator, in LLVM successor order (for a switch,
successor 0 is the default target). -/
def Term.succsOf : Term → List Nat
  | .br d => [d]
  | .condbr _ t f => [t, f]
  | .switch _ d cs => d :: cs.map (·.2)
  | .ret => []

structure Blk where
  bid : Nat
  insts : List Inst
  term : Term
  isLandingPad : Bool
deriving DecidableEq, Repr

def Blk.succs (b : Blk) : List Nat := b.term.succsOf

/-- First block with the given id (`llvm::BasicBlock*` lookup). -/
def blockOf (blocks : List Blk) (bid : Nat) : Option Blk :=
  blocks.find? (fun b => b.bid = bid)

/-- Predecessor edges of a block: one entry per incoming CFG edge, in the
order blocks and successor slots are listed (models `pred_begin/pred_end`). -/
def predEdges (blocks : List Blk) (bid : Nat) : List Nat :=
  blocks.flatMap (fun b => (b.succs.filter (fun s => s = bid)).map (fun _ => b.bid))

/-- `BasicBlock::phis()`: the phi nodes leading the block. -/
def leadingPhis (insts : List Inst) : List Inst :=
  insts.takeWhile Inst.isPhiInst

/-! ### C8 — inputs binder (`getFuncValuePtrsMap`)

The binder scans every operand of every instruction of every block and
builds a `name → Value` map with `std::map::emplace`.  For this component
only the textual names and value handles of the scanned operands matter, so
it is modelled over a function given as blocks of instructions of named
operands. -/

/-- One scanned operand: its textual name (`getValueOpName`) and the value
handle (`llvm::Value*`). -/
structure NamedOperand where
  name : String
  vid : Nat
deriving DecidableEq, Repr

/-- `std::map::emplace`: silently does nothing when the key is present. -/
def emplaceName (m : List (String × Nat)) (k : String) (v : Nat) :
    List (String × Nat) :=
  if m.any (fun e => e.1 = k) then m else m ++ [(k, v)]

/-- `SubroutineInjection::getFuncValuePtrsMap`, per function: iterate the
blocks, each block's instructions, each instruction's operands and
`emplace` the pair `(name, value)` into the map. -/
def getFuncValuePtrsMap (blocks : List (List (List NamedOperand))) :
    List (String × Nat) :=
  blocks.foldl
    (fun m bb =>
      bb.foldl
        (fun m ins =>
          ins.foldl (fun m op => emplaceName m op.name op.vid) m)
        m)
    []

/-- Map lookup by name. -/
def lookupName (m : List (String × Nat)) (k : String) : Option Nat :=
  (m.find? (fun e => e.1 = k)).map (·.2)

/-- The scan order of operands: blocks, then instructions, then operands. -/
def scanOrder (blocks : List (List (List NamedOperand))) : List NamedOperand :=
  blocks.flatMap (fun bb => bb.flatMap (fun ins => ins))

/-- Folding the binder over a flat list of operands. -/
def buildNameMap (ops : List NamedOperand) (m : List (String × Nat)) :
    List (String × Nat) :=
  ops.foldl (fun m op => emplaceName m op.name op.vid) m

theorem lookupName_emplace (m : List (String × Nat)) (k : String) (v : Nat)
    (n : String) :
    lookupName (emplaceName m k v) n =
      match lookupName m n with
      | some w => some w
      | none => if k = n then some v else none := by
  unfold emplaceName lookupName
  cases hmem : m.any (fun e => e.1 = k) with
  | true =>
    simp only [if_true]
    cases hfind : m.find? (fun e => decide (e.1 = n)) with
    | some e => rfl
    | none =>
      by_cases hkn : k = n
      · exfalso
        rcases List.any_eq_true.mp hmem with ⟨e, he, hek⟩
        have hnone := List.find?_eq_none.mp hfind e he
        rw [decide_eq_true_eq] at hek
        rw [decide_eq_true_eq] at hnone
        exact hnone (hkn ▸ hek)
      · simp [hkn]
  | false =>
    simp only [Bool.false_eq_true, if_false, List.find?_append]
    cases hfind : m.find? (fun e => decide (e.1 = n)) with
    | some e => rfl
    | none =>
      by_cases hkn : k = n
      · simp [List.find?, hkn]
      · simp [List.find?, hkn]

theorem lookupName_buildNameMap (ops : List NamedOperand)
    (m : List (String × Nat)) (n : String) :
    lookupName (buildNameMap ops m) n =
      match lookupName m n with
      | some w => some w
      | none => (ops.find? (fun op => op.name = n)).map (·.vid) := by
  induction ops generalizing m with
  | nil =>
    unfold buildNameMap
    simp only [List.foldl_nil]
    cases lookupName m n <;> simp
  | cons op ops ih =>
    unfold buildNameMap
    simp only [List.foldl_cons]
    rw [show (List.foldl (fun m op => emplaceName m op.name op.vid) :
        List (String × Nat) → List NamedOperand → List (String × Nat))
        (emplaceName m op.name op.vid) ops =
        buildNameMap ops (emplaceName m op.name op.vid) from rfl]
    rw [ih, lookupName_emplace]
    cases hm : lookupName m n with
    | some w => rfl
    | none =>
      by_cases hkn : op.name = n
      · simp [List.find?, hkn]
      · simp [List.find?, hkn]

theorem getFuncValuePtrsMap_eq_buildNameMap
    (blocks : List (List (List NamedOperand))) :
    getFuncValuePtrsMap blocks = buildNameMap (scanOrder blocks) [] := by
  unfold getFuncValuePtrsMap scanOrder
  have h : ∀ (bs : List (List (List NamedOperand))) (m : List (String × Nat)),
      bs.foldl
        (fun m bb =>
          bb.foldl
            (fun m ins => ins.foldl (fun m op => emplaceName m op.name op.vid) m)
            m)
        m =
      buildNameMap (bs.flatMap (fun bb => bb.flatMap (fun ins => ins))) m := by
    intro bs
    induction bs with
    | nil => intro m; simp [buildNameMap]
    | cons bb bs ihb =>
      intro m
      simp only [List.foldl_cons, List.flatMap_cons]
      rw [ihb]
      unfold buildNameMap
      rw [List.foldl_append]
      congr 1
      induction bb generalizing m with
      | nil => simp
      | cons ins bb ihi =>
        simp only [List.foldl_cons, List.flatMap_cons, List.foldl_append]
        rw [ihi]
  exact h blocks []

/-! ### Candidate selector

Models `getBBsWithOneSuccessor`, `removeNestedPtrTrackedVals`,
`removeBBsWithNoTrackedVals` and `chooseBBWithCheckpointDirective`
(the filter chain of `injectSubroutines` step 0).  A tracked value is a
value handle together with its type. -/

structure TVal where
  vid : Nat
  ty : Ty
deriving DecidableEq, Repr

/-- `LiveValues::BBTrackedVals`: per-block tracked-value sets, keyed by
block id.  `std::map` keys are unique; theorems assume `Nodup` keys. -/
abbrev BBTrackedVals := List (Nat × List TVal)

/-- `SubroutineInjection::getBBsWithOneSuccessor`: keep the entries whose
block's terminator has exactly one successor. -/
def getBBsWithOneSuccessor (blocks : List Blk) (bbTrackedVals : BBTrackedVals) :
    BBTrackedVals :=
  bbTrackedVals.filter (fun e =>
    match blockOf blocks e.1 with
    | some b => b.succs.length = 1
    | none => false)

/-- The removal test of `removeNestedPtrTrackedVals`:
`valType->isPointerTy() && valType->getContainedType(0)->getNumContainedTypes() > 0`. -/
def isNestedPtrVal (v : TVal) : Bool :=
  v.ty.isPointerTy && decide (v.ty.containedType0.numContainedTypes > 0)

/-- `SubroutineInjection::removeNestedPtrTrackedVals`. -/
def removeNestedPtrTrackedVals (m : BBTrackedVals) : BBTrackedVals :=
  m.map (fun e => (e.1, e.2.filter (fun v => !(isNestedPtrVal v))))

/-- `SubroutineInjection::removeBBsWithNoTrackedVals`. -/
def removeBBsWithNoTrackedVals (m : BBTrackedVals) : BBTrackedVals :=
  m.filter (fun e => decide (e.2.length > 0))

/-- Substring occurrence test (`llvm::StringRef::contains`). -/
def containsSubList (pat : List Char) : List Char → Bool
  | [] => pat.isEmpty
  | c :: rest => pat.isPrefixOf (c :: rest) || containsSubList pat rest

/-- A call instruction whose callee's symbolic name contains `checkpoint`
(`name.contains("checkpoint")` on `getCalledFunction()->getName()`). -/
def isCheckpointCall : Inst → Bool
  | .call name _ => containsSubList "checkpoint".data name.data
  | _ => false

/-- `inst->eraseFromParent()` applied to the first checkpoint-directive
call of a block. -/
def eraseFirstCheckpointCall : List Inst → List Inst
  | [] => []
  | i :: rest =>
    if isCheckpointCall i then rest else i :: eraseFirstCheckpointCall rest

/-- `SubroutineInjection::chooseBBWithCheckpointDirective`: walk the
function's blocks in order; a block that contains a checkpoint-directive
call and has an entry in the (filtered) tracked-values map is selected,
and that call is erased from it.  Returns the selection map (`cpBBMap`)
and the blocks after erasure. -/
def chooseBBWithCheckpointDirective :
    List Blk → BBTrackedVals → BBTrackedVals × List Blk
  | [], _ => ([], [])
  | b :: rest, m =>
    let r := chooseBBWithCheckpointDirective rest m
    if b.insts.any isCheckpointCall then
      match m.find? (fun e => e.1 = b.bid) with
      | some e =>
        (e :: r.1, { b with insts := eraseFirstCheckpointCall b.insts } :: r.2)
      | none => (r.1, b :: r.2)
    else (r.1, b :: r.2)

/-- The candidate filter chain of `injectSubroutines` (step `= 0`, lines
881–884). -/
def filteredTrackedVals (blocks : List Blk) (m : BBTrackedVals) : BBTrackedVals :=
  removeBBsWithNoTrackedVals (removeNestedPtrTrackedVals (getBBsWithOneSuccessor blocks m))

/-- The whole candidate selector: filter chain followed by directive
selection. -/
def selectCandidates (blocks : List Blk) (m : BBTrackedVals) :
    BBTrackedVals × List Blk :=
  chooseBBWithCheckpointDirective blocks (filteredTrackedVals blocks m)

theorem filteredTrackedVals_find (blocks : List Blk) (m : BBTrackedVals)
    (k : Nat) (hnd : (m.map (·.1)).Nodup) :
    (filteredTrackedVals blocks m).find? (fun e => e.1 = k) =
      match m.find? (fun e => e.1 = k) with
      | none => none
      | some e =>
        if ((match blockOf blocks k with
             | some b => decide (b.succs.length = 1)
             | none => false)
            && decide ((e.2.filter (fun v => !(isNestedPtrVal v))).length > 0)) = true
        then some (e.1, e.2.filter (fun v => !(isNestedPtrVal v)))
        else none := by
  induction m with
  | nil => rfl
  | cons e rest ih =>
    have hnd' : (rest.map (·.1)).Nodup := (List.nodup_cons.mp hnd).2
    have hke : e.1 ∉ rest.map (·.1) := (List.nodup_cons.mp hnd).1
    by_cases hek : e.1 = k
    · subst hek
      have hrest : rest.find? (fun x => x.1 = e.1) = none := by
        apply List.find?_eq_none.mpr
        intro x hx
        simp only [decide_eq_true_eq]
        intro hxe
        exact hke (hxe ▸ List.mem_map_of_mem (·.1) hx)
      unfold filteredTrackedVals getBBsWithOneSuccessor removeNestedPtrTrackedVals
        removeBBsWithNoTrackedVals
      simp only [List.filter_cons, List.find?_cons]
      cases hbo : blockOf blocks e.1 with
      | none =>
        simp only [hbo]
        have : (filteredTrackedVals blocks rest).find? (fun x => x.1 = e.1) = none := by
          rw [ih hnd', hrest]
        unfold filteredTrackedVals getBBsWithOneSuccessor removeNestedPtrTrackedVals
          removeBBsWithNoTrackedVals at this
        simpa using this
      | some b =>
        simp only [hbo]
        by_cases h1 : b.succs.length = 1
        · by_cases h2 : (e.2.filter (fun v => !(isNestedPtrVal v))).length > 0
          · simp [h1, h2, List.find?_cons]
          · have : (filteredTrackedVals blocks rest).find? (fun x => x.1 = e.1) = none := by
              rw [ih hnd', hrest]
            unfold filteredTrackedVals getBBsWithOneSuccessor removeNestedPtrTrackedVals
              removeBBsWithNoTrackedVals at this
            simpa [hbo, h1, h2] using this
        · have : (filteredTrackedVals blocks rest).find? (fun x => x.1 = e.1) = none := by
            rw [ih hnd', hrest]
          unfold filteredTrackedVals getBBsWithOneSuccessor removeNestedPtrTrackedVals
            removeBBsWithNoTrackedVals at this
          simpa [hbo, h1] using this
    · unfold filteredTrackedVals getBBsWithOneSuccessor removeNestedPtrTrackedVals
        removeBBsWithNoTrackedVals
      simp only [List.filter_cons, List.find?_cons]
      cases hbo : blockOf blocks e.1 with
      | none =>
        have := ih hnd'
        unfold filteredTrackedVals getBBsWithOneSuccessor removeNestedPtrTrackedVals
          removeBBsWithNoTrackedVals at this
        simpa [hbo, hek, List.find?_cons] using this
      | some b =>
        by_cases h1 : b.succs.length = 1
        · by_cases h2 : (e.2.filter (fun v => !(isNestedPtrVal v))).length > 0
          · have := ih hnd'
            unfold filteredTrackedVals getBBsWithOneSuccessor removeNestedPtrTrackedVals
              removeBBsWithNoTrackedVals at this
            simpa [hbo, h1, h2, hek, List.find?_cons] using this
          · have := ih hnd'
            unfold filteredTrackedVals getBBsWithOneSuccessor removeNestedPtrTrackedVals
              removeBBsWithNoTrackedVals at this
            simpa [hbo, h1, h2, hek, List.find?_cons] using this
        · have := ih hnd'
          unfold filteredTrackedVals getBBsWithOneSuccessor removeNestedPtrTrackedVals
            removeBBsWithNoTrackedVals at this
          simpa [hbo, h1, hek, List.find?_cons] using this

theorem blockOf_of_mem_nodup (blocks : List Blk) (b : Blk) (hb : b ∈ blocks)
    (hnd : (blocks.map (·.bid)).Nodup) : blockOf blocks b.bid = some b := by
  induction blocks with
  | nil => cases hb
  | cons x rest ih =>
    rcases List.mem_cons.mp hb with hx | hr
    · subst hx
      unfold blockOf
      simp [List.find?_cons]
    · have hnd' := (List.nodup_cons.mp hnd).2
      have hxk : x.bid ∉ rest.map (·.bid) := (List.nodup_cons.mp hnd).1
      have hne : ¬(x.bid = b.bid) := by
        intro hcontra
        exact hxk (hcontra ▸ List.mem_map_of_mem (·.bid) hr)
      unfold blockOf at ih ⊢
      simp only [List.find?_cons]
      have hd : decide (x.bid = b.bid) = false := by simp [hne]
      rw [hd]
      exact ih hr hnd'

theorem choose_sel_keys (blocks : List Blk) (m : BBTrackedVals) :
    ∀ e ∈ (chooseBBWithCheckpointDirective blocks m).1, e.1 ∈ blocks.map (·.bid) := by
  induction blocks with
  | nil =>
    intro e he
    simp [chooseBBWithCheckpointDirective] at he
  | cons b rest ih =>
    intro e he
    unfold chooseBBWithCheckpointDirective at he
    by_cases hc : b.insts.any isCheckpointCall
    · simp only [hc, if_true] at he
      cases hf : m.find? (fun x => x.1 = b.bid) with
      | some x =>
        rw [hf] at he
        simp only [List.mem_cons] at he
        rcases he with he | he
        · have hx : x.1 = b.bid := by
            have := List.find?_some hf
            simpa using this
          subst he
          simp [hx]
        · simp only [List.map_cons, List.mem_cons]
          exact Or.inr (ih e he)
      | none =>
        rw [hf] at he
        simp only [List.map_cons, List.mem_cons]
        exact Or.inr (ih e he)
    · simp only [hc, if_false, Bool.false_eq_true] at he
      simp only [List.map_cons, List.mem_cons]
      exact Or.inr (ih e he)

theorem choose_selected (blocks : List Blk) (m : BBTrackedVals) (b : Blk)
    (hb : b ∈ blocks) (hnd : (blocks.map (·.bid)).Nodup) :
    (chooseBBWithCheckpointDirective blocks m).1.any (fun e => e.1 = b.bid) =
      (b.insts.any isCheckpointCall && (m.find? (fun e => e.1 = b.bid)).isSome) := by
  induction blocks with
  | nil => cases hb
  | cons x rest ih =>
    have hnd' := (List.nodup_cons.mp hnd).2
    have hxk : x.bid ∉ rest.map (·.bid) := (List.nodup_cons.mp hnd).1
    rcases List.mem_cons.mp hb with hx | hr
    · subst hx
      have hrest : (chooseBBWithCheckpointDirective rest m).1.any
          (fun e => e.1 = b.bid) = false := by
        rw [List.any_eq_false]
        intro e he
        simp only [decide_eq_true_eq]
        intro hcontra
        exact hxk (hcontra ▸ choose_sel_keys rest m e he)
      unfold chooseBBWithCheckpointDirective
      by_cases hc : b.insts.any isCheckpointCall
      · simp only [hc, if_true]
        cases hf : m.find? (fun e => e.1 = b.bid) with
        | some e =>
          have hx : e.1 = b.bid := by
            have := List.find?_some hf
            simpa using this
          simp [hx, hrest]
        | none => simp [hrest]
      · simp only [hc, if_false]
        simp only [Bool.false_eq_true, if_false]
        simp only [hc, Bool.false_and]
        simpa using hrest
    · have hne : ¬(x.bid = b.bid) := by
        intro hcontra
        exact hxk (hcontra ▸ List.mem_map_of_mem (·.bid) hr)
      unfold chooseBBWithCheckpointDirective
      by_cases hc : x.insts.any isCheckpointCall
      · simp only [hc, if_true]
        cases hf : m.find? (fun e => e.1 = x.bid) with
        | some e =>
          have hx : e.1 = x.bid := by
            have := List.find?_some hf
            simpa using this
          simp only [List.any_cons]
          rw [ih hr hnd']
          simp [hx, hne]
        | none => exact ih hr hnd'
      · simp only [hc, if_false, Bool.false_eq_true]
        exact ih hr hnd'

theorem choose_blockOf (blocks : List Blk) (m : BBTrackedVals) (b : Blk)
    (hb : b ∈ blocks) (hnd : (blocks.map (·.bid)).Nodup) :
    blockOf (chooseBBWithCheckpointDirective blocks m).2 b.bid =
      some (if (b.insts.any isCheckpointCall &&
                (m.find? (fun e => e.1 = b.bid)).isSome) = true
            then { b with insts := eraseFirstCheckpointCall b.insts }
            else b) := by
  induction blocks with
  | nil => cases hb
  | cons x rest ih =>
    have hnd' := (List.nodup_cons.mp hnd).2
    have hxk : x.bid ∉ rest.map (·.bid) := (List.nodup_cons.mp hnd).1
    rcases List.mem_cons.mp hb with hx | hr
    · subst hx
      unfold chooseBBWithCheckpointDirective
      by_cases hc : b.insts.any isCheckpointCall
      · simp only [hc, if_true]
        cases hf : m.find? (fun e => e.1 = b.bid) with
        | some e => simp [blockOf, List.find?_cons]
        | none => simp [blockOf, List.find?_cons]
      · simp only [hc, if_false, Bool.false_eq_true]
        simp [blockOf, List.find?_cons, hc]
    · have hne : ¬(x.bid = b.bid) := by
        intro hcontra
        exact hxk (hcontra ▸ List.mem_map_of_mem (·.bid) hr)
      unfold chooseBBWithCheckpointDirective
      by_cases hc : x.insts.any isCheckpointCall
      · simp only [hc, if_true]
        cases hf : m.find? (fun e => e.1 = x.bid) with
        | some e =>
          have := ih hr hnd'
          unfold blockOf at this ⊢
          simp only [List.find?_cons]
          have hd : decide (x.bid = b.bid) = false := by simp [hne]
          rw [show ({ x with insts := eraseFirstCheckpointCall x.insts } : Blk).bid
              = x.bid from rfl, hd]
          exact this
        | none =>
          have := ih hr hnd'
          unfold blockOf at this ⊢
          simp only [List.find?_cons]
          have hd : decide (x.bid = b.bid) = false := by simp [hne]
          rw [hd]
          exact this
      · simp only [hc, if_false, Bool.false_eq_true]
        have := ih hr hnd'
        unfold blockOf at this ⊢
        simp only [List.find?_cons]
        have hd : decide (x.bid = b.bid) = false := by simp [hne]
        rw [hd]
        exact this

/-! ### Marshaller

Models step `++ 3.3` of `injectSubroutines`: for each tracked value one
slot `k = VALUES_START + i` is used, a store into `gep(ckpt_mem, k)` is
emitted in the save block, a load from `gep(ckpt_mem, k)` in the restore
block, and a two-way phi in the junction block.  Fresh value handles are
drawn from a counter. -/

/-- Slot layout of the checkpoint memory region.  Modelled from the spec:
the slot constants live in `dale_passes/SubroutineInjection.h`, which is not
among the sources; the spec fixes `HEARTBEAT = 0`, `CKPT_ID = 1`,
`IS_COMPLETE = 2`, `VALUES_START = 3`. -/
def HEARTBEAT : Int := 0

/-- Slot 1 of the checkpoint memory region (see `HEARTBEAT`). -/
def CKPT_ID : Int := 1

/-- Slot 2 of the checkpoint memory region (see `HEARTBEAT`). -/
def IS_COMPLETE : Int := 2

/-- First value slot of the checkpoint memory region (see `HEARTBEAT`). -/
def VALUES_START : Int := 3

/-- Marshalling of one tracked value (loop body of step 3.3, lines
1016–1086): returns the instructions appended (before the terminator) to
the save block and to the restore block, the phi inserted into the
junction block, the phi's handle, and the next fresh handle.  Mirrors the
source: a pointer-typed value is dereferenced by an `i32` load before
saving and is rebuilt behind an `alloca` plus store after loading. -/
def marshalOne (ckptMem saveBBId restoreBBId : Nat) (v : TVal) (k : Int)
    (fresh : Nat) : List Inst × List Inst × Inst × Nat × Nat :=
  let isPointer := v.ty.isPointerTy
  let containedType := v.ty.containedType0
  let (saveVal, fresh1, derefInsts) :=
    if isPointer then (fresh, fresh + 1, [Inst.load fresh .i32 (.v v.vid)])
    else (v.vid, fresh, ([] : List Inst))
  let gepS := fresh1
  let saveInsts := derefInsts ++ [Inst.gep gepS (.v ckptMem) (.c k),
                                  Inst.store (.v saveVal) (.v gepS)]
  let fresh2 := fresh1 + 1
  let gepR := fresh2
  let loadR := fresh2 + 1
  let fresh3 := fresh2 + 2
  let (restoredVal, fresh4, wrapInsts) :=
    if isPointer then
      (fresh3, fresh3 + 1, [Inst.alloca fresh3 containedType,
                            Inst.store (.v loadR) (.v fresh3)])
    else (loadR, fresh3, ([] : List Inst))
  let restoreInsts := [Inst.gep gepR (.v ckptMem) (.c k),
                       Inst.load loadR containedType (.v gepR)] ++ wrapInsts
  let phiId := fresh4
  let phiInst := Inst.phi phiId v.ty [(saveBBId, .v v.vid), (restoreBBId, .v restoredVal)]
  (saveInsts, restoreInsts, phiInst, phiId, fresh4 + 1)

structure MarshalOut where
  saveInsts : List Inst
  restoreInsts : List Inst
  junctionPhis : List Inst
  slots : List (Nat × Int)
  phiMap : List (Nat × Nat)
  fresh : Nat
deriving DecidableEq, Repr

/-- The whole marshalling loop of step 3.3 over the tracked values of one
checkpoint; `valMemSegIndex` starts at `VALUES_START` and is incremented
once per tracked value.  `slots` and `phiMap` record which slot and which
junction phi each tracked value received. -/
def marshalAll (ckptMem saveBBId restoreBBId : Nat) :
    List TVal → Int → Nat → MarshalOut
  | [], _, fresh => ⟨[], [], [], [], [], fresh⟩
  | v :: rest, k, fresh =>
    let one := marshalOne ckptMem saveBBId restoreBBId v k fresh
    let out := marshalAll ckptMem saveBBId restoreBBId rest (k + 1) one.2.2.2.2
    ⟨one.1 ++ out.saveInsts, one.2.1 ++ out.restoreInsts,
     one.2.2.1 :: out.junctionPhis,
     (v.vid, k) :: out.slots, (v.vid, one.2.2.2.1) :: out.phiMap, out.fresh⟩

/-- `store 1, gep(ckpt_mem, IS_COMPLETE)` appended to the save block after
the tracked values (lines 1095–1101). -/
def emitIsComplete (ckptMem : Nat) (fresh : Nat) : List Inst × Nat :=
  ([Inst.gep fresh (.v ckptMem) (.c IS_COMPLETE),
    Inst.store (.c 1) (.v fresh)], fresh + 1)

/-- Does instruction `i` define the pointer `p` as `gep ckptMem, k`?  Then
report the constant slot `k`. -/
def gepSlotHit (ckptMem : Nat) (p : Opnd) (i : Inst) : Option Int :=
  match i with
  | .gep d base idx =>
    if p = .v d ∧ base = .v ckptMem then
      match idx with
      | .c k => some k
      | .v _ => none
    else none
  | _ => none

/-- Resolve the slot index a pointer operand addresses: the constant index
of the `gep ckpt_mem, k` instruction that defines it. -/
def slotOfPtrOperand (insts : List Inst) (ckptMem : Nat) (p : Opnd) : Option Int :=
  insts.findSome? (gepSlotHit ckptMem p)

/-- Slot indices of the checkpoint-memory stores of an instruction list. -/
def storeSlots (insts : List Inst) (ckptMem : Nat) : List Int :=
  insts.filterMap (fun i =>
    match i with
    | .store _ ptr => slotOfPtrOperand insts ckptMem ptr
    | _ => none)

/-- Slot indices of the checkpoint-memory loads of an instruction list. -/
def loadSlots (insts : List Inst) (ckptMem : Nat) : List Int :=
  insts.filterMap (fun i =>
    match i with
    | .load _ _ src => slotOfPtrOperand insts ckptMem src
    | _ => none)

def gepDstsOf (insts : List Inst) : List Nat :=
  insts.filterMap (fun i =>
    match i with
    | .gep d _ _ => some d
    | _ => none)

def storePtrIds (insts : List Inst) : List Nat :=
  insts.filterMap (fun i =>
    match i with
    | .store _ (.v g) => some g
    | _ => none)

def loadSrcIds (insts : List Inst) : List Nat :=
  insts.filterMap (fun i =>
    match i with
    | .load _ _ (.v g) => some g
    | _ => none)

theorem marshalOne_ptr (c s r : Nat) (v : TVal) (k : Int) (f : Nat)
    (h : v.ty.isPointerTy = true) :
    marshalOne c s r v k f =
      ([Inst.load f .i32 (.v v.vid), Inst.gep (f+1) (.v c) (.c k),
        Inst.store (.v f) (.v (f+1))],
       [Inst.gep (f+2) (.v c) (.c k),
        Inst.load (f+3) v.ty.containedType0 (.v (f+2)),
        Inst.alloca (f+4) v.ty.containedType0, Inst.store (.v (f+3)) (.v (f+4))],
       Inst.phi (f+5) v.ty [(s, .v v.vid), (r, .v (f+4))], f+5, f+6) := by
  unfold marshalOne
  rw [h]
  rfl

theorem marshalOne_nonptr (c s r : Nat) (v : TVal) (k : Int) (f : Nat)
    (h : v.ty.isPointerTy = false) :
    marshalOne c s r v k f =
      ([Inst.gep f (.v c) (.c k), Inst.store (.v v.vid) (.v f)],
       [Inst.gep (f+1) (.v c) (.c k), Inst.load (f+2) v.ty.containedType0 (.v (f+1))],
       Inst.phi (f+3) v.ty [(s, .v v.vid), (r, .v (f+2))], f+3, f+4) := by
  unfold marshalOne
  rw [h]
  rfl

theorem marshalOne_fresh_lb (c s r : Nat) (v : TVal) (k : Int) (f : Nat) :
    f + 4 ≤ (marshalOne c s r v k f).2.2.2.2 := by
  cases hp : v.ty.isPointerTy with
  | true =>
    rw [marshalOne_ptr c s r v k f hp]
    show f + 4 ≤ f + 6
    omega
  | false =>
    rw [marshalOne_nonptr c s r v k f hp]

theorem marshalAll_cons (c s r : Nat) (v : TVal) (rest : List TVal) (k : Int)
    (f : Nat) :
    marshalAll c s r (v :: rest) k f =
      ⟨(marshalOne c s r v k f).1 ++
         (marshalAll c s r rest (k + 1) (marshalOne c s r v k f).2.2.2.2).saveInsts,
       (marshalOne c s r v k f).2.1 ++
         (marshalAll c s r rest (k + 1) (marshalOne c s r v k f).2.2.2.2).restoreInsts,
       (marshalOne c s r v k f).2.2.1 ::
         (marshalAll c s r rest (k + 1) (marshalOne c s r v k f).2.2.2.2).junctionPhis,
       (v.vid, k) ::
         (marshalAll c s r rest (k + 1) (marshalOne c s r v k f).2.2.2.2).slots,
       (v.vid, (marshalOne c s r v k f).2.2.2.1) ::
         (marshalAll c s r rest (k + 1) (marshalOne c s r v k f).2.2.2.2).phiMap,
       (marshalAll c s r rest (k + 1) (marshalOne c s r v k f).2.2.2.2).fresh⟩ := rfl

theorem marshalAll_ids_lb (c s r : Nat) (vals : List TVal) (k : Int) (f : Nat) :
    (∀ g ∈ storePtrIds (marshalAll c s r vals k f).saveInsts, f ≤ g) ∧
    (∀ g ∈ loadSrcIds (marshalAll c s r vals k f).restoreInsts, f ≤ g) ∧
    f ≤ (marshalAll c s r vals k f).fresh := by
  induction vals generalizing k f with
  | nil =>
    refine ⟨?_, ?_, le_refl f⟩ <;> intro g hg <;>
      simp [marshalAll, storePtrIds, loadSrcIds] at hg
  | cons v rest ih =>
    obtain ⟨ihS, ihL, ihF⟩ := ih (k + 1) ((marshalOne c s r v k f).2.2.2.2)
    rw [marshalAll_cons]
    have hfr4 : f + 4 ≤ (marshalOne c s r v k f).2.2.2.2 :=
      marshalOne_fresh_lb c s r v k f
    have hsv : ∀ g ∈ storePtrIds (marshalOne c s r v k f).1, f ≤ g := by
      cases hp : v.ty.isPointerTy with
      | true =>
        rw [marshalOne_ptr c s r v k f hp]
        intro g hg
        simp [storePtrIds] at hg
        omega
      | false =>
        rw [marshalOne_nonptr c s r v k f hp]
        intro g hg
        simp [storePtrIds] at hg
        omega
    have hld : ∀ g ∈ loadSrcIds (marshalOne c s r v k f).2.1, f ≤ g := by
      cases hp : v.ty.isPointerTy with
      | true =>
        rw [marshalOne_ptr c s r v k f hp]
        intro g hg
        simp [loadSrcIds] at hg
        omega
      | false =>
        rw [marshalOne_nonptr c s r v k f hp]
        intro g hg
        simp [loadSrcIds] at hg
        omega
    refine ⟨?_, ?_, ?_⟩
    · intro g hg
      simp only [storePtrIds, List.filterMap_append, List.mem_append] at hg
      rcases hg with hg | hg
      · exact hsv g hg
      · have := ihS g hg
        omega
    · intro g hg
      simp only [loadSrcIds, List.filterMap_append, List.mem_append] at hg
      rcases hg with hg | hg
      · exact hld g hg
      · have := ihL g hg
        omega
    · show f ≤ (marshalAll c s r rest (k + 1) (marshalOne c s r v k f).2.2.2.2).fresh
      omega

theorem gepDstsOf_cons_sub (i : Inst) (rest : List Inst) :
    ∀ d ∈ gepDstsOf rest, d ∈ gepDstsOf (i :: rest) := by
  intro d hd
  unfold gepDstsOf at hd ⊢
  rw [List.filterMap_cons]
  cases i <;> simp_all [List.mem_cons]

theorem findSome?_gep_none (A : List Inst) (c : Nat) (p : Opnd)
    (h : ∀ d ∈ gepDstsOf A, ∀ g, p = .v g → g ≠ d) :
    A.findSome? (gepSlotHit c p) = none := by
  induction A with
  | nil => rfl
  | cons i rest ih =>
    rw [List.findSome?_cons]
    have hrest : rest.findSome? (gepSlotHit c p) = none :=
      ih (fun d hd g hg => h d (gepDstsOf_cons_sub i rest d hd) g hg)
    cases i with
    | gep d base idx =>
      have hd : d ∈ gepDstsOf (Inst.gep d base idx :: rest) := by
        simp [gepDstsOf, List.filterMap_cons]
      have hcond : ¬(p = .v d ∧ base = .v c) := by
        rintro ⟨hp, _⟩
        exact h d hd d hp rfl
      unfold gepSlotHit
      simp only [hcond, if_false]
      exact hrest
    | call a b => exact hrest
    | load a b e => exact hrest
    | store a b => exact hrest
    | alloca a b => exact hrest
    | add a b e => exact hrest
    | phi a b e => exact hrest
    | other a b => exact hrest

theorem slotOf_append_of_lb (A S : List Inst) (c : Nat) (p : Opnd)
    (h : ∀ d ∈ gepDstsOf A, ∀ g, p = .v g → g ≠ d) :
    slotOfPtrOperand (A ++ S) c p = slotOfPtrOperand S c p := by
  unfold slotOfPtrOperand
  rw [List.findSome?_append, findSome?_gep_none A c p h]
  rfl

/-- The slot indices `k, k+1, …, k+n-1`. -/
def slotRange (k : Int) (n : Nat) : List Int :=
  (List.range n).map (fun i => k + Int.ofNat i)

theorem range_map_shift (k : Int) (n : Nat) :
    slotRange k (n + 1) = k :: slotRange (k + 1) n := by
  unfold slotRange
  rw [List.range_succ_eq_map, List.map_cons, List.map_map]
  norm_num
  intro a ha
  ring

theorem storeSlots_marshalAll (c s r : Nat) (vals : List TVal) (k : Int)
    (f : Nat) :
    storeSlots (marshalAll c s r vals k f).saveInsts c = slotRange k vals.length ∧
    loadSlots (marshalAll c s r vals k f).restoreInsts c = slotRange k vals.length := by
  induction vals generalizing k f with
  | nil => exact ⟨rfl, rfl⟩
  | cons v rest ih =>
    obtain ⟨ihS, ihL⟩ := ih (k + 1) ((marshalOne c s r v k f).2.2.2.2)
    obtain ⟨lbS, lbL, _⟩ :=
      marshalAll_ids_lb c s r rest (k + 1) ((marshalOne c s r v k f).2.2.2.2)
    have hfr4 := marshalOne_fresh_lb c s r v k f
    rw [marshalAll_cons]
    rw [List.length_cons, range_map_shift]
    cases hp : v.ty.isPointerTy with
    | true =>
      rw [marshalOne_ptr c s r v k f hp] at lbS lbL hfr4 ihS ihL ⊢
      constructor
      · show storeSlots
          ([Inst.load f .i32 (.v v.vid), Inst.gep (f+1) (.v c) (.c k),
            Inst.store (.v f) (.v (f+1))] ++
           (marshalAll c s r rest (k+1) (f+6)).saveInsts) c = _
        unfold storeSlots
        rw [List.filterMap_append]
        have hA : List.filterMap
            (fun i =>
              match i with
              | .store _ ptr =>
                slotOfPtrOperand
                  ([Inst.load f .i32 (.v v.vid), Inst.gep (f+1) (.v c) (.c k),
                    Inst.store (.v f) (.v (f+1))] ++
                   (marshalAll c s r rest (k+1) (f+6)).saveInsts) c ptr
              | _ => none)
            [Inst.load f .i32 (.v v.vid), Inst.gep (f+1) (.v c) (.c k),
             Inst.store (.v f) (.v (f+1))] = [k] := by
          simp [slotOfPtrOperand, List.findSome?_cons, gepSlotHit]
        rw [hA]
        have hS : List.filterMap
            (fun i =>
              match i with
              | .store _ ptr =>
                slotOfPtrOperand
                  ([Inst.load f .i32 (.v v.vid), Inst.gep (f+1) (.v c) (.c k),
                    Inst.store (.v f) (.v (f+1))] ++
                   (marshalAll c s r rest (k+1) (f+6)).saveInsts) c ptr
              | _ => none)
            (marshalAll c s r rest (k+1) (f+6)).saveInsts =
            storeSlots (marshalAll c s r rest (k+1) (f+6)).saveInsts c := by
          unfold storeSlots
          apply List.filterMap_congr
          intro x hx
          cases x with
          | store w ptr =>
            have : slotOfPtrOperand
                ([Inst.load f .i32 (.v v.vid), Inst.gep (f+1) (.v c) (.c k),
                  Inst.store (.v f) (.v (f+1))] ++
                 (marshalAll c s r rest (k+1) (f+6)).saveInsts) c ptr =
                slotOfPtrOperand (marshalAll c s r rest (k+1) (f+6)).saveInsts c ptr := by
              apply slotOf_append_of_lb
              intro d hd g hg
              subst hg
              have hgl : g ∈ storePtrIds (marshalAll c s r rest (k+1) (f+6)).saveInsts := by
                unfold storePtrIds
                rw [List.mem_filterMap]
                exact ⟨Inst.store w (.v g), hx, rfl⟩
              have := lbS g hgl
              simp [gepDstsOf, List.filterMap_cons] at hd
              omega
            simpa using this
          | call a b => rfl
          | load a b e => rfl
          | gep a b e => rfl
          | alloca a b => rfl
          | add a b e => rfl
          | phi a b e => rfl
          | other a b => rfl
        rw [hS, ihS]
        rfl
      · show loadSlots
          ([Inst.gep (f+2) (.v c) (.c k),
            Inst.load (f+3) v.ty.containedType0 (.v (f+2)),
            Inst.alloca (f+4) v.ty.containedType0,
            Inst.store (.v (f+3)) (.v (f+4))] ++
           (marshalAll c s r rest (k+1) (f+6)).restoreInsts) c = _
        unfold loadSlots
        rw [List.filterMap_append]
        have hA : List.filterMap
            (fun i =>
              match i with
              | .load _ _ src =>
                slotOfPtrOperand
                  ([Inst.gep (f+2) (.v c) (.c k),
                    Inst.load (f+3) v.ty.containedType0 (.v (f+2)),
                    Inst.alloca (f+4) v.ty.containedType0,
                    Inst.store (.v (f+3)) (.v (f+4))] ++
                   (marshalAll c s r rest (k+1) (f+6)).restoreInsts) c src
              | _ => none)
            [Inst.gep (f+2) (.v c) (.c k),
             Inst.load (f+3) v.ty.containedType0 (.v (f+2)),
             Inst.alloca (f+4) v.ty.containedType0,
             Inst.store (.v (f+3)) (.v (f+4))] = [k] := by
          simp [slotOfPtrOperand, List.findSome?_cons, gepSlotHit]
        rw [hA]
        have hS : List.filterMap
            (fun i =>
              match i with
              | .load _ _ src =>
                slotOfPtrOperand
                  ([Inst.gep (f+2) (.v c) (.c k),
                    Inst.load (f+3) v.ty.containedType0 (.v (f+2)),
                    Inst.alloca (f+4) v.ty.containedType0,
                    Inst.store (.v (f+3)) (.v (f+4))] ++
                   (marshalAll c s r rest (k+1) (f+6)).restoreInsts) c src
              | _ => none)
            (marshalAll c s r rest (k+1) (f+6)).restoreInsts =
            loadSlots (marshalAll c s r rest (k+1) (f+6)).restoreInsts c := by
          unfold loadSlots
          apply List.filterMap_congr
          intro x hx
          cases x with
          | load w ty src =>
            have : slotOfPtrOperand
                ([Inst.gep (f+2) (.v c) (.c k),
                  Inst.load (f+3) v.ty.containedType0 (.v (f+2)),
                  Inst.alloca (f+4) v.ty.containedType0,
                  Inst.store (.v (f+3)) (.v (f+4))] ++
                 (marshalAll c s r rest (k+1) (f+6)).restoreInsts) c src =
                slotOfPtrOperand (marshalAll c s r rest (k+1) (f+6)).restoreInsts c src := by
              apply slotOf_append_of_lb
              intro d hd g hg
              subst hg
              have hgl : g ∈ loadSrcIds (marshalAll c s r rest (k+1) (f+6)).restoreInsts := by
                unfold loadSrcIds
                rw [List.mem_filterMap]
                exact ⟨Inst.load w ty (.v g), hx, rfl⟩
              have := lbL g hgl
              simp [gepDstsOf, List.filterMap_cons] at hd
              omega
            simpa using this
          | call a b => rfl
          | store a b => rfl
          | gep a b e => rfl
          | alloca a b => rfl
          | add a b e => rfl
          | phi a b e => rfl
          | other a b => rfl
        rw [hS, ihL]
        rfl
    | false =>
      rw [marshalOne_nonptr c s r v k f hp] at lbS lbL hfr4 ihS ihL ⊢
      constructor
      · show storeSlots
          ([Inst.gep f (.v c) (.c k), Inst.store (.v v.vid) (.v f)] ++
           (marshalAll c s r rest (k+1) (f+4)).saveInsts) c = _
        unfold storeSlots
        rw [List.filterMap_append]
        have hA : List.filterMap
            (fun i =>
              match i with
              | .store _ ptr =>
                slotOfPtrOperand
                  ([Inst.gep f (.v c) (.c k), Inst.store (.v v.vid) (.v f)] ++
                   (marshalAll c s r rest (k+1) (f+4)).saveInsts) c ptr
              | _ => none)
            [Inst.gep f (.v c) (.c k), Inst.store (.v v.vid) (.v f)] = [k] := by
          simp [slotOfPtrOperand, List.findSome?_cons, gepSlotHit]
        rw [hA]
        have hS : List.filterMap
            (fun i =>
              match i with
              | .store _ ptr =>
                slotOfPtrOperand
                  ([Inst.gep f (.v c) (.c k), Inst.store (.v v.vid) (.v f)] ++
                   (marshalAll c s r rest (k+1) (f+4)).saveInsts) c ptr
              | _ => none)
            (marshalAll c s r rest (k+1) (f+4)).saveInsts =
            storeSlots (marshalAll c s r rest (k+1) (f+4)).saveInsts c := by
          unfold storeSlots
          apply List.filterMap_congr
          intro x hx
          cases x with
          | store w ptr =>
            have : slotOfPtrOperand
                ([Inst.gep f (.v c) (.c k), Inst.store (.v v.vid) (.v f)] ++
                 (marshalAll c s r rest (k+1) (f+4)).saveInsts) c ptr =
                slotOfPtrOperand (marshalAll c s r rest (k+1) (f+4)).saveInsts c ptr := by
              apply slotOf_append_of_lb
              intro d hd g hg
              subst hg
              have hgl : g ∈ storePtrIds (marshalAll c s r rest (k+1) (f+4)).saveInsts := by
                unfold storePtrIds
                rw [List.mem_filterMap]
                exact ⟨Inst.store w (.v g), hx, rfl⟩
              have := lbS g hgl
              simp [gepDstsOf, List.filterMap_cons] at hd
              omega
            simpa using this
          | call a b => rfl
          | load a b e => rfl
          | gep a b e => rfl
          | alloca a b => rfl
          | add a b e => rfl
          | phi a b e => rfl
          | other a b => rfl
        rw [hS, ihS]
        rfl
      · show loadSlots
          ([Inst.gep (f+1) (.v c) (.c k),
            Inst.load (f+2) v.ty.containedType0 (.v (f+1))] ++
           (marshalAll c s r rest (k+1) (f+4)).restoreInsts) c = _
        unfold loadSlots
        rw [List.filterMap_append]
        have hA : List.filterMap
            (fun i =>
              match i with
              | .load _ _ src =>
                slotOfPtrOperand
                  ([Inst.gep (f+1) (.v c) (.c k),
                    Inst.load (f+2) v.ty.containedType0 (.v (f+1))] ++
                   (marshalAll c s r rest (k+1) (f+4)).restoreInsts) c src
              | _ => none)
            [Inst.gep (f+1) (.v c) (.c k),
             Inst.load (f+2) v.ty.containedType0 (.v (f+1))] = [k] := by
          simp [slotOfPtrOperand, List.findSome?_cons, gepSlotHit]
        rw [hA]
        have hS : List.filterMap
            (fun i =>
              match i with
              | .load _ _ src =>
                slotOfPtrOperand
                  ([Inst.gep (f+1) (.v c) (.c k),
                    Inst.load (f+2) v.ty.containedType0 (.v (f+1))] ++
                   (marshalAll c s r rest (k+1) (f+4)).restoreInsts) c src
              | _ => none)
            (marshalAll c s r rest (k+1) (f+4)).restoreInsts =
            loadSlots (marshalAll c s r rest (k+1) (f+4)).restoreInsts c := by
          unfold loadSlots
          apply List.filterMap_congr
          intro x hx
          cases x with
          | load w ty src =>
            have : slotOfPtrOperand
                ([Inst.gep (f+1) (.v c) (.c k),
                  Inst.load (f+2) v.ty.containedType0 (.v (f+1))] ++
                 (marshalAll c s r rest (k+1) (f+4)).restoreInsts) c src =
                slotOfPtrOperand (marshalAll c s r rest (k+1) (f+4)).restoreInsts c src := by
              apply slotOf_append_of_lb
              intro d hd g hg
              subst hg
              have hgl : g ∈ loadSrcIds (marshalAll c s r rest (k+1) (f+4)).restoreInsts := by
                unfold loadSrcIds
                rw [List.mem_filterMap]
                exact ⟨Inst.load w ty (.v g), hx, rfl⟩
              have := lbL g hgl
              simp [gepDstsOf, List.filterMap_cons] at hd
              omega
            simpa using this
          | call a b => rfl
          | store a b => rfl
          | gep a b e => rfl
          | alloca a b => rfl
          | add a b e => rfl
          | phi a b e => rfl
          | other a b => rfl
        rw [hS, ihL]
        rfl

theorem marshalAll_slots (c s r : Nat) (vals : List TVal) (k : Int) (f : Nat) :
    (marshalAll c s r vals k f).slots =
      List.zip (vals.map (·.vid)) (slotRange k vals.length) := by
  induction vals generalizing k f with
  | nil => rfl
  | cons v rest ih =>
    rw [marshalAll_cons]
    show (v.vid, k) :: (marshalAll c s r rest (k + 1)
      (marshalOne c s r v k f).2.2.2.2).slots = _
    rw [List.map_cons, List.length_cons, range_map_shift, List.zip_cons_cons]
    exact congrArg _ (ih (k + 1) ((marshalOne c s r v k f).2.2.2.2))

theorem slotRange_nodup (k : Int) (n : Nat) : (slotRange k n).Nodup := by
  unfold slotRange
  apply List.Nodup.map
  · intro a b h
    simp only [Int.ofNat_eq_coe, add_right_inj] at h
    exact_mod_cast h
  · exact List.nodup_range n

/-- C3: for every installed checkpoint, the marshaller assigns slot indices
`VALUES_START + i`, counting `i` from 0 per checkpoint.  The save block's
store-slot list and the restore block's load-slot list are both exactly
`VALUES_START, VALUES_START+1, …`; the `i`-th tracked value is assigned the
slot `VALUES_START + i` in both blocks; and the slots are pairwise
distinct, so distinct tracked values in the same save block get distinct
slots. -/
theorem claim_C3 (ckptMem saveBBId restoreBBId : Nat) (vals : List TVal)
    (f : Nat) :
    storeSlots (marshalAll ckptMem saveBBId restoreBBId vals VALUES_START f).saveInsts
        ckptMem = slotRange VALUES_START vals.length ∧
    loadSlots (marshalAll ckptMem saveBBId restoreBBId vals VALUES_START f).restoreInsts
        ckptMem = slotRange VALUES_START vals.length ∧
    (marshalAll ckptMem saveBBId restoreBBId vals VALUES_START f).slots =
      List.zip (vals.map (·.vid)) (slotRange VALUES_START vals.length) ∧
    (slotRange VALUES_START vals.length).Nodup := by
  obtain ⟨h1, h2⟩ :=
    storeSlots_marshalAll ckptMem saveBBId restoreBBId vals VALUES_START f
  exact ⟨h1, h2, marshalAll_slots ckptMem saveBBId restoreBBId vals VALUES_START f,
    slotRange_nodup VALUES_START vals.length⟩

/-- C5: per tracked value `v` with slot `k`, the marshaller emits in the
save block a store of `saveVal` to `gep(ckpt_mem, k)` where `saveVal` is a
load through `v` when `v` is pointer-typed and `v` itself otherwise; in the
restore block a load from `gep(ckpt_mem, k)` giving `restoredVal`, wrapped
in an alloca plus store when `v` is pointer-typed; and for the junction
block a phi with exactly two incomings, `v` from the save block and
`restoredVal` from the restore block. -/
theorem claim_C5 (ckptMem saveBBId restoreBBId : Nat) (v : TVal) (k : Int)
    (f : Nat) :
    (v.ty.isPointerTy = true →
      marshalOne ckptMem saveBBId restoreBBId v k f =
        ([Inst.load f .i32 (.v v.vid),
          Inst.gep (f+1) (.v ckptMem) (.c k),
          Inst.store (.v f) (.v (f+1))],
         [Inst.gep (f+2) (.v ckptMem) (.c k),
          Inst.load (f+3) v.ty.containedType0 (.v (f+2)),
          Inst.alloca (f+4) v.ty.containedType0,
          Inst.store (.v (f+3)) (.v (f+4))],
         Inst.phi (f+5) v.ty [(saveBBId, .v v.vid), (restoreBBId, .v (f+4))],
         f+5, f+6)) ∧
    (v.ty.isPointerTy = false →
      marshalOne ckptMem saveBBId restoreBBId v k f =
        ([Inst.gep f (.v ckptMem) (.c k),
          Inst.store (.v v.vid) (.v f)],
         [Inst.gep (f+1) (.v ckptMem) (.c k),
          Inst.load (f+2) v.ty.containedType0 (.v (f+1))],
         Inst.phi (f+3) v.ty [(saveBBId, .v v.vid), (restoreBBId, .v (f+2))],
         f+3, f+4)) :=
  ⟨marshalOne_ptr ckptMem saveBBId restoreBBId v k f,
   marshalOne_nonptr ckptMem saveBBId restoreBBId v k f⟩

/-- Witness for C5 at a concrete pointer-typed tracked value. -/
theorem claim_C5_witness :
    marshalOne 0 1 2 ⟨9, .ptr .i32⟩ 3 10 =
      ([Inst.load 10 .i32 (.v 9), Inst.gep 11 (.v 0) (.c 3),
        Inst.store (.v 10) (.v 11)],
       [Inst.gep 12 (.v 0) (.c 3),
        Inst.load 13 (Ty.ptr Ty.i32).containedType0 (.v 12),
        Inst.alloca 14 (Ty.ptr Ty.i32).containedType0,
        Inst.store (.v 13) (.v 14)],
       Inst.phi 15 (Ty.ptr Ty.i32) [(1, .v 9), (2, .v 14)], 15, 16) :=
  (claim_C5 0 1 2 ⟨9, .ptr .i32⟩ 3 10).1 (by decide)

/-- C4: a basic block is selected as a checkpoint block iff it has exactly
one CFG successor, its tracked-value set is non-empty after removing
nested-pointer values, and it contains a call whose callee name contains
`checkpoint`; upon selection that call is erased from the block. -/
theorem claim_C4 (blocks : List Blk) (m : BBTrackedVals) (b : Blk)
    (V : List TVal)
    (hndb : (blocks.map (·.bid)).Nodup)
    (hndm : (m.map (·.1)).Nodup)
    (hb : b ∈ blocks)
    (hm : m.find? (fun e => e.1 = b.bid) = some (b.bid, V)) :
    ((selectCandidates blocks m).1.any (fun e => e.1 = b.bid) = true ↔
      (b.succs.length = 1 ∧
       (V.filter (fun v => !(isNestedPtrVal v))) ≠ [] ∧
       b.insts.any isCheckpointCall = true)) ∧
    ((selectCandidates blocks m).1.any (fun e => e.1 = b.bid) = true →
      blockOf (selectCandidates blocks m).2 b.bid =
        some { b with insts := eraseFirstCheckpointCall b.insts }) := by
  have hbo : blockOf blocks b.bid = some b := blockOf_of_mem_nodup blocks b hb hndb
  have hff := filteredTrackedVals_find blocks m b.bid hndm
  rw [hm, hbo] at hff
  dsimp only at hff
  have hsel := choose_selected blocks (filteredTrackedVals blocks m) b hb hndb
  have hblk := choose_blockOf blocks (filteredTrackedVals blocks m) b hb hndb
  by_cases h1 : b.succs.length = 1
  · by_cases h2 : (V.filter (fun v => !(isNestedPtrVal v))).length > 0
    · have hcond : (decide (b.succs.length = 1) &&
          decide ((V.filter (fun v => !(isNestedPtrVal v))).length > 0)) = true := by
        simp [h1, h2]
      rw [if_pos hcond] at hff
      rw [hff] at hsel hblk
      simp only [Option.isSome_some, Bool.and_true] at hsel hblk
      constructor
      · show (chooseBBWithCheckpointDirective blocks
          (filteredTrackedVals blocks m)).1.any (fun e => e.1 = b.bid) = true ↔ _
        rw [hsel]
        constructor
        · intro h3
          exact ⟨h1, List.length_pos.mp h2, h3⟩
        · rintro ⟨_, _, h3⟩
          exact h3
      · intro hs
        have h3 : b.insts.any isCheckpointCall = true := by
          rw [← hsel]
          exact hs
        show blockOf (chooseBBWithCheckpointDirective blocks
          (filteredTrackedVals blocks m)).2 b.bid = _
        rw [hblk, if_pos h3]
    · have hcond : (decide (b.succs.length = 1) &&
          decide ((V.filter (fun v => !(isNestedPtrVal v))).length > 0)) = false := by
        simp [h2]
      rw [hcond] at hff
      rw [if_neg (by simp)] at hff
      rw [hff] at hsel
      simp only [Option.isSome_none, Bool.and_false] at hsel
      constructor
      · show (chooseBBWithCheckpointDirective blocks
          (filteredTrackedVals blocks m)).1.any (fun e => e.1 = b.bid) = true ↔ _
        rw [hsel]
        constructor
        · intro hcontra
          exact absurd hcontra (by simp)
        · rintro ⟨_, hne, _⟩
          have hz : (V.filter (fun v => !(isNestedPtrVal v))).length = 0 := by omega
          exact absurd (List.length_eq_zero.mp hz) hne
      · intro hs
        have : False := by
          have hs2 : (chooseBBWithCheckpointDirective blocks
              (filteredTrackedVals blocks m)).1.any (fun e => e.1 = b.bid) = true := hs
          rw [hsel] at hs2
          exact Bool.false_ne_true hs2
        exact this.elim
  · have hcond : (decide (b.succs.length = 1) &&
        decide ((V.filter (fun v => !(isNestedPtrVal v))).length > 0)) = false := by
      simp [h1]
    rw [hcond] at hff
    rw [if_neg (by simp)] at hff
    rw [hff] at hsel
    simp only [Option.isSome_none, Bool.and_false] at hsel
    constructor
    · show (chooseBBWithCheckpointDirective blocks
        (filteredTrackedVals blocks m)).1.any (fun e => e.1 = b.bid) = true ↔ _
      rw [hsel]
      constructor
      · intro hcontra
        exact absurd hcontra (by simp)
      · rintro ⟨hc, _, _⟩
        exact absurd hc h1
    · intro hs
      have : False := by
        have hs2 : (chooseBBWithCheckpointDirective blocks
            (filteredTrackedVals blocks m)).1.any (fun e => e.1 = b.bid) = true := hs
        rw [hsel] at hs2
        exact Bool.false_ne_true hs2
      exact this.elim

/-- Witness for C4 at a concrete one-block function marked by a checkpoint
directive. -/
theorem claim_C4_witness :
    ((selectCandidates [⟨0, [.call "take_checkpoint" []], .br 1, false⟩]
        [(0, [⟨5, .i32⟩])]).1.any (fun e => e.1 = 0) = true ↔
      ((⟨0, [.call "take_checkpoint" []], .br 1, false⟩ : Blk).succs.length = 1 ∧
       (([⟨5, .i32⟩] : List TVal).filter (fun v => !(isNestedPtrVal v))) ≠ [] ∧
       ([Inst.call "take_checkpoint" []] : List Inst).any isCheckpointCall = true)) ∧
    ((selectCandidates [⟨0, [.call "take_checkpoint" []], .br 1, false⟩]
        [(0, [⟨5, .i32⟩])]).1.any (fun e => e.1 = 0) = true →
      blockOf (selectCandidates [⟨0, [.call "take_checkpoint" []], .br 1, false⟩]
        [(0, [⟨5, .i32⟩])]).2 0 =
        some ⟨0, eraseFirstCheckpointCall [.call "take_checkpoint" []], .br 1, false⟩) :=
  claim_C4 [⟨0, [.call "take_checkpoint" []], .br 1, false⟩] [(0, [⟨5, .i32⟩])]
    ⟨0, [.call "take_checkpoint" []], .br 1, false⟩ [⟨5, .i32⟩]
    (by decide) (by decide) (by decide) (by decide)

/-! ### SSA-repair propagator

Models `propagateRestoredValuesBFS` / `processUpdateRequest` (lines
1226–1455) together with the helpers `getOrDefault`, `updateMapEntry`,
`numOfPredsWhereVarIsLiveOut`, `isPhiInstExistForIncomingBBForTrackedVal`
and `replaceOperandsInInst`.  `std::set<Value*>` is modelled as a
duplicate-free list with order-preserving insertion. -/

structure UpdateReq where
  startBB : Nat
  currBB : Nat
  prevBB : Nat
  oldVal : Nat
  newVal : Nat
  valueVersions : List Nat
deriving DecidableEq, Repr

/-- Static data of one propagation run: the new blocks of the current
function, the live-out analysis maps consulted by
`numOfPredsWhereVarIsLiveOut`, and the types of tracked values
(`oldVal->getType()`). -/
structure PropCtx where
  newBBs : List Nat
  funcLiveOut : List (Nat × List Nat)
  saveLiveOut : List (Nat × List Nat)
  restoreLiveOut : List (Nat × List Nat)
  junctionLiveOut : List (Nat × List Nat)
  valTys : List (Nat × Ty)
deriving DecidableEq, Repr

structure PropState where
  blocks : List Blk
  visited : List (Nat × List Nat)
  fresh : Nat
deriving DecidableEq, Repr

/-- `std::set::insert`. -/
def insertVal (xs : List Nat) (x : Nat) : List Nat :=
  if xs.contains x then xs else xs ++ [x]

/-- `set.insert(other.begin(), other.end())`. -/
def unionVals (xs ys : List Nat) : List Nat :=
  ys.foldl insertVal xs

def lookupSet (m : List (Nat × List Nat)) (k : Nat) : Option (List Nat) :=
  (m.find? (fun e => e.1 = k)).map (·.2)

/-- `SubroutineInjection::updateMapEntry`: erase the key and re-emplace it
with the new value. -/
def updateMapEntry (k : Nat) (v : List Nat) (m : List (Nat × List Nat)) :
    List (Nat × List Nat) :=
  if m.any (fun e => e.1 = k) then
    m.map (fun e => if e.1 = k then (k, v) else e)
  else m ++ [(k, v)]

/-- `SubroutineInjection::getOrDefault`: return the stored set and mark the
block as visited by emplacing an empty set when absent. -/
def getOrDefaultVisited (k : Nat) (m : List (Nat × List Nat)) :
    List Nat × List (Nat × List Nat) :=
  match lookupSet m k with
  | some s => (s, m)
  | none => ([], m ++ [(k, [])])

/-- The live-out set consulted for a predecessor: junction map first, then
save, then restore, then the analysis live-out data (lines 1488–1510). -/
def liveOutSetOfPred (ctx : PropCtx) (pred : Nat) : List Nat :=
  match lookupSet ctx.junctionLiveOut pred with
  | some s => s
  | none =>
    match lookupSet ctx.saveLiveOut pred with
    | some s => s
    | none =>
      match lookupSet ctx.restoreLiveOut pred with
      | some s => s
      | none =>
        match lookupSet ctx.funcLiveOut pred with
        | some s => s
        | none => []

/-- `SubroutineInjection::numOfPredsWhereVarIsLiveOut`. -/
def numOfPredsWhereVarIsLiveOut (ctx : PropCtx) (blocks : List Blk)
    (bid : Nat) (val : Nat) : Nat :=
  ((predEdges blocks bid).filter
    (fun p => (liveOutSetOfPred ctx p).contains val)).length

def replaceOpnd (old new : Nat) : Opnd → Opnd
  | .v x => if x = old then .v new else .v x
  | .c n => .c n

/-- `SubroutineInjection::replaceOperandsInInst`: replace every operand
equal to `oldVal` by `newVal` (for a phi, the incoming values are its
operands). -/
def replaceOperandsInInst (old new : Nat) : Inst → Inst
  | .call name args => .call name (args.map (replaceOpnd old new))
  | .load d ty src => .load d ty (replaceOpnd old new src)
  | .gep d base idx => .gep d (replaceOpnd old new base) (replaceOpnd old new idx)
  | .store val ptr => .store (replaceOpnd old new val) (replaceOpnd old new ptr)
  | .alloca d ty => .alloca d ty
  | .add d a b => .add d (replaceOpnd old new a) (replaceOpnd old new b)
  | .phi d ty inc => .phi d ty (inc.map (fun p => (p.1, replaceOpnd old new p.2)))
  | .other d ops => .other d (ops.map (replaceOpnd old new))

/-- Operand replacement on the terminator (the terminator is an
instruction of the block in LLVM; branch targets are not value operands). -/
def replaceTermOperands (old new : Nat) : Term → Term
  | .br d => .br d
  | .condbr cond t f => .condbr (replaceOpnd old new cond) t f
  | .switch cond d cs => .switch (replaceOpnd old new cond) d cs
  | .ret => .ret

/-- `SubroutineInjection::isPhiInstExistForIncomingBBForTrackedVal`. -/
def isPhiInstExistForIncomingBBForTrackedVal (vv : List Nat) (blk : Blk)
    (prevBB : Nat) : Bool :=
  (leadingPhis blk.insts).any (fun i =>
    match i with
    | .phi _ _ inc =>
      inc.any (fun p =>
        p.1 = prevBB &&
          match p.2 with
          | .v x => vv.contains x
          | .c _ => false)
    | _ => false)

/-- One phi of the modify-existing-phi branch: when some incoming from
`prevBB` carries a value in `valueVersions` other than `newVal`,
`setIncomingValueForBlock` rewrites every incoming from `prevBB` to
`newVal`.  Returns the phi and whether a rewrite happened. -/
def modifyPhiInst (vv : List Nat) (prevBB newVal : Nat) (i : Inst) :
    Inst × Bool :=
  match i with
  | .phi d ty inc =>
    let trigger := inc.any (fun p =>
      p.1 = prevBB &&
        match p.2 with
        | .v x => vv.contains x && !(x = newVal)
        | .c _ => false)
    if trigger then
      (.phi d ty (inc.map (fun p =>
        if p.1 = prevBB then (p.1, Opnd.v newVal) else p)), true)
    else (.phi d ty inc, false)
  | i => (i, false)

/-- The modify-existing-phi branch over the block's leading phis. -/
def modifyLeadingPhis (vv : List Nat) (prevBB newVal : Nat)
    (insts : List Inst) : List Inst × Bool :=
  let phis := leadingPhis insts
  let rest := insts.drop phis.length
  let results := phis.map (modifyPhiInst vv prevBB newVal)
  (results.map (·.1) ++ rest, results.any (·.2))

/-- Stop condition (a): `currBB == startBB && visitedBBs->count(currBB)`. -/
def stopRevisitedStart (req : UpdateReq) (s : PropState) : Bool :=
  req.currBB = req.startBB && s.visited.any (fun e => e.1 = req.currBB)

/-- Stop condition (b): `currBB` has no successors. -/
def stopNoSuccessors (blk : Blk) : Bool :=
  blk.succs.length = 0

/-- Stop condition (c): the accumulated set and the incoming
`valueVersions` hold the same elements (`isAllContained` plus equal
sizes). -/
def stopSaturated (bbVV vv : List Nat) : Bool :=
  bbVV.all (fun x => vv.contains x) && bbVV.length = vv.length

/-- The join test of `processUpdateRequest` (line 1306): the block is not
newly created, has at least two predecessor edges, and `oldVal` is
live-out in more than one of them. -/
def joinCondHolds (ctx : PropCtx) (blocks : List Blk) (req : UpdateReq) : Bool :=
  !(ctx.newBBs.contains req.currBB)
    && decide (2 ≤ (predEdges blocks req.currBB).length)
    && decide (1 < numOfPredsWhereVarIsLiveOut ctx blocks req.currBB req.oldVal)

/-- The self-definition guard: some instruction of the block is itself a
member of `valueVersions`. -/
def selfDefFires (vv : List Nat) (insts : List Inst) : Bool :=
  insts.any (fun i =>
    match i.defId with
    | some d => vv.contains d
    | none => false)

/-- `valueVersions` after the new-phi branch inserted one entry per
predecessor (`newVal` for `prevBB`, `oldVal` for the rest). -/
def joinExtendedVersions (blocks : List Blk) (req : UpdateReq) : List Nat :=
  (predEdges blocks req.currBB).foldl
    (fun acc p => insertVal acc (if p = req.prevBB then req.newVal else req.oldVal))
    req.valueVersions

/-- The type of the new phi created by the join branch:
`oldVal->getType()`. -/
def phiTyOf (ctx : PropCtx) (v : Nat) : Ty :=
  match (ctx.valTys.find? (fun e => e.1 = v)).map (·.2) with
  | some t => t
  | none => Ty.i32

/-- `SubroutineInjection::processUpdateRequest`: dequeue-time processing of
one update request.  Returns the updated blocks/visited state and the
requests pushed onto the queue. -/
def processUpdateRequest (ctx : PropCtx) (req : UpdateReq) (s : PropState) :
    PropState × List UpdateReq :=
  match blockOf s.blocks req.currBB with
  | none => (s, [])
  | some blk =>
    let vv := req.valueVersions
    let gd := getOrDefaultVisited req.currBB s.visited
    let bbVV := gd.1
    let visited1 := gd.2
    let isStop0 := stopRevisitedStart req s || stopNoSuccessors blk ||
      stopSaturated bbVV vv
    if joinCondHolds ctx s.blocks req then
      if isPhiInstExistForIncomingBBForTrackedVal vv blk req.prevBB then
        let mp := modifyLeadingPhis vv req.prevBB req.newVal blk.insts
        let blocks2 := s.blocks.map (fun b =>
          if b.bid = req.currBB then { b with insts := mp.1 } else b)
        let visited2 :=
          if mp.2 then updateMapEntry req.currBB (unionVals bbVV vv) visited1
          else visited1
        (⟨blocks2, visited2, s.fresh⟩, [])
      else
        let newPhiId := s.fresh
        let preds := predEdges s.blocks req.currBB
        let phiTy := phiTyOf ctx req.oldVal
        let inc := preds.map (fun p =>
          (p, Opnd.v (if p = req.prevBB then req.newVal else req.oldVal)))
        let vv1 := joinExtendedVersions s.blocks req
        let newPhi := Inst.phi newPhiId phiTy inc
        let selfDef := selfDefFires vv1 blk.insts
        let newInsts := newPhi :: blk.insts.map (replaceOperandsInInst req.oldVal newPhiId)
        let newTerm := replaceTermOperands req.oldVal newPhiId blk.term
        let blocks2 := s.blocks.map (fun b =>
          if b.bid = req.currBB then { b with insts := newInsts, term := newTerm } else b)
        let vv2 := insertVal vv1 newPhiId
        let visited2 := updateMapEntry req.currBB (unionVals bbVV vv2) visited1
        let isStop := isStop0 || selfDef
        let enq := if isStop then [] else
          (blk.succs.filter (fun sb => !(sb = req.currBB))).map (fun sb =>
            { startBB := req.startBB, currBB := sb, prevBB := req.currBB,
              oldVal := req.oldVal, newVal := newPhiId,
              valueVersions := vv2 : UpdateReq })
        (⟨blocks2, visited2, s.fresh + 1⟩, enq)
    else
      let selfDef := selfDefFires vv blk.insts
      let newInsts := blk.insts.map (replaceOperandsInInst req.oldVal req.newVal)
      let newTerm := replaceTermOperands req.oldVal req.newVal blk.term
      let blocks2 := s.blocks.map (fun b =>
        if b.bid = req.currBB then { b with insts := newInsts, term := newTerm } else b)
      let vv2 := insertVal vv req.newVal
      let visited2 := updateMapEntry req.currBB (unionVals bbVV vv2) visited1
      let isStop := isStop0 || selfDef
      let enq := if isStop then [] else
        (blk.succs.filter (fun sb => !(sb = req.currBB))).map (fun sb =>
          { startBB := req.startBB, currBB := sb, prevBB := req.currBB,
            oldVal := req.oldVal, newVal := req.newVal,
            valueVersions := vv2 : UpdateReq })
      (⟨blocks2, visited2, s.fresh⟩, enq)

structure BFSState where
  prop : PropState
  queue : List UpdateReq
deriving DecidableEq, Repr

/-- One iteration of the worklist loop of `propagateRestoredValuesBFS`:
pop the front request and process it. -/
def bfsStep (ctx : PropCtx) (s : BFSState) : BFSState :=
  match s.queue with
  | [] => s
  | r :: rest =>
    let pr := processUpdateRequest ctx r s.prop
    { prop := pr.1, queue := rest ++ pr.2 }

/-- The initial worklist of `propagateRestoredValuesBFS`: a single request
at `startBB` with `valueVersions = {oldVal, newVal}`. -/
def propagateInit (startBB prevBB oldVal newVal : Nat) (blocks : List Blk)
    (fresh : Nat) : BFSState :=
  { prop := { blocks := blocks, visited := [], fresh := fresh },
    queue := [{ startBB := startBB, currBB := startBB, prevBB := prevBB,
                oldVal := oldVal, newVal := newVal,
                valueVersions := insertVal (insertVal [] oldVal) newVal }] }

/-- Fuel-bounded execution of the worklist loop (the loop itself runs
until the queue empties). -/
def bfsRun (ctx : PropCtx) : Nat → BFSState → BFSState
  | 0, s => s
  | n + 1, s => bfsRun ctx n (bfsStep ctx s)

/-- The worklist never empties: the loop `while(!q.empty())` of
`propagateRestoredValuesBFS` runs forever from this state. -/
def queueNeverEmpties (ctx : PropCtx) (s : BFSState) : Prop :=
  ∀ n : Nat, (bfsRun ctx n s).queue ≠ []

theorem bfsRun_add (ctx : PropCtx) (m n : Nat) (s : BFSState) :
    bfsRun ctx (m + n) s = bfsRun ctx m (bfsRun ctx n s) := by
  induction n generalizing s with
  | zero => rfl
  | succ n ih => exact ih (bfsStep ctx s)

/-- A CFG on which the propagator never terminates.  The junction block 10
feeds the resume block 20, which branches into two paths `21 → 31` and
`22 → 32`; the join blocks 31 and 32 each have a second outside
predecessor (23 resp. 24) with the tracked value live-out, so each path
mints its own fresh phi; both paths then enter the two-block cycle
`41 ⇄ 42`, whose blocks are non-join (the value is live-out in only one
predecessor each).  The two circulating requests carry incomparable
version sets, so the saturation stop never fires and both re-enqueue
forever. -/
def c2blocks : List Blk :=
  [⟨10, [], .br 20, false⟩,
   ⟨20, [], .condbr (.v 90) 21 22, false⟩,
   ⟨21, [], .br 31, false⟩,
   ⟨22, [], .br 32, false⟩,
   ⟨23, [], .br 31, false⟩,
   ⟨24, [], .br 32, false⟩,
   ⟨31, [], .br 41, false⟩,
   ⟨32, [], .br 42, false⟩,
   ⟨41, [], .br 42, false⟩,
   ⟨42, [], .br 41, false⟩]

/-- Analysis context for `c2blocks`: block 10 is the junction (a new
block); the tracked value 100 is live-out of 21, 22, 23, 24, 41 and 42. -/
def c2ctx : PropCtx :=
  { newBBs := [10],
    funcLiveOut := [(21, [100]), (22, [100]), (23, [100]), (24, [100]),
                    (41, [100]), (42, [100])],
    saveLiveOut := [],
    restoreLiveOut := [],
    junctionLiveOut := [(10, [100])],
    valTys := [(100, .i32)] }

/-- Initial worklist: propagate the junction phi 200 for tracked value 100
from the junction 10 into the resume block 20. -/
def c2init : BFSState := propagateInit 20 10 100 200 c2blocks 300

theorem c2_period : bfsRun c2ctx 14 c2init = bfsRun c2ctx 10 c2init := by decide

/-- C2 counterexample: the breadth-first traversal does not terminate on
every CFG.  On the concrete cyclic CFG `c2blocks` the worklist state is
periodic from step 10 on and the queue never empties, so
`propagateRestoredValuesBFS`'s `while(!q.empty())` loop runs forever; the
two circulating requests are re-enqueued without growing any per-block
version set. -/
theorem claim_C2_counterexample : queueNeverEmpties c2ctx c2init := by
  intro n
  induction n using Nat.strong_induction_on with
  | _ n ih =>
    by_cases h : n < 14
    · have hall : ((List.range 14).all
          (fun k => !(bfsRun c2ctx k c2init).queue.isEmpty)) = true := by decide
      have hm := List.all_eq_true.mp hall n (List.mem_range.mpr h)
      intro hq
      rw [hq] at hm
      simp at hm
    · push_neg at h
      have h1 : n = (n - 14) + 14 := by omega
      have h2 : (n - 14) + 10 = n - 4 := by omega
      have hred : bfsRun c2ctx n c2init = bfsRun c2ctx (n - 4) c2init := by
        calc bfsRun c2ctx n c2init
            = bfsRun c2ctx ((n - 14) + 14) c2init := by rw [← h1]
          _ = bfsRun c2ctx (n - 14) (bfsRun c2ctx 14 c2init) :=
              bfsRun_add c2ctx (n - 14) 14 c2init
          _ = bfsRun c2ctx (n - 14) (bfsRun c2ctx 10 c2init) := by rw [c2_period]
          _ = bfsRun c2ctx ((n - 14) + 10) c2init :=
              (bfsRun_add c2ctx (n - 14) 10 c2init).symm
          _ = bfsRun c2ctx (n - 4) c2init := by rw [h2]
      rw [hred]
      exact ih (n - 4) (by omega)

/-- C2 (amended): a dequeued update request performs no further enqueue
exactly when (a) `currBlock = startBlock` and it has been visited, (b) the
block has no successors, (c) the request's `valueVersions` and the block's
accumulated version set hold the same elements, or additionally when the
join branch rewrites an existing phi, when the self-definition guard fires
(an instruction of the block is itself a value version), or when every
successor equals `currBlock`.  The original claim's conditions (a)–(c)
alone are not exhaustive, and the traversal is not guaranteed to
terminate (see the counterexample). -/
theorem claim_C2 (ctx : PropCtx) (req : UpdateReq) (s : PropState) (blk : Blk)
    (hblk : blockOf s.blocks req.currBB = some blk) :
    (processUpdateRequest ctx req s).2 = [] ↔
      (stopRevisitedStart req s = true ∨
       stopNoSuccessors blk = true ∨
       stopSaturated (getOrDefaultVisited req.currBB s.visited).1
         req.valueVersions = true ∨
       (joinCondHolds ctx s.blocks req = true ∧
        isPhiInstExistForIncomingBBForTrackedVal req.valueVersions blk
          req.prevBB = true) ∨
       (joinCondHolds ctx s.blocks req = true ∧
        isPhiInstExistForIncomingBBForTrackedVal req.valueVersions blk
          req.prevBB = false ∧
        selfDefFires (joinExtendedVersions s.blocks req) blk.insts = true) ∨
       (joinCondHolds ctx s.blocks req = false ∧
        selfDefFires req.valueVersions blk.insts = true) ∨
       blk.succs.filter (fun sb => !(sb = req.currBB)) = []) := by
  unfold processUpdateRequest
  rw [hblk]
  dsimp only
  by_cases hj : joinCondHolds ctx s.blocks req = true
  · rw [if_pos hj]
    by_cases hphi : isPhiInstExistForIncomingBBForTrackedVal req.valueVersions
        blk req.prevBB = true
    · rw [if_pos hphi]
      constructor
      · intro _
        exact Or.inr (Or.inr (Or.inr (Or.inl ⟨hj, hphi⟩)))
      · intro _
        rfl
    · rw [if_neg hphi]
      have hphi' : isPhiInstExistForIncomingBBForTrackedVal req.valueVersions
          blk req.prevBB = false := by
        exact Bool.not_eq_true _ ▸ (by simpa using hphi)
      by_cases hstop : (stopRevisitedStart req s || stopNoSuccessors blk ||
          stopSaturated (getOrDefaultVisited req.currBB s.visited).1
            req.valueVersions ||
          selfDefFires (joinExtendedVersions s.blocks req) blk.insts) = true
      · rw [if_pos hstop]
        simp only [Bool.or_eq_true] at hstop
        constructor
        · intro _
          rcases hstop with ((ha | hb) | hc) | hd
          · exact Or.inl ha
          · exact Or.inr (Or.inl hb)
          · exact Or.inr (Or.inr (Or.inl hc))
          · exact Or.inr (Or.inr (Or.inr (Or.inr (Or.inl ⟨hj, hphi', hd⟩))))
        · intro _
          rfl
      · rw [if_neg hstop]
        simp only [Bool.or_eq_true, not_or] at hstop
        obtain ⟨⟨⟨ha, hb⟩, hc⟩, hd⟩ := hstop
        rw [List.map_eq_nil_iff]
        constructor
        · intro hfil
          exact Or.inr (Or.inr (Or.inr (Or.inr (Or.inr (Or.inr hfil)))))
        · rintro (h | h | h | h | h | h | h)
          · exact absurd h ha
          · exact absurd h hb
          · exact absurd h hc
          · exact absurd h.2 hphi
          · exact absurd h.2.2 hd
          · exact absurd hj (by rw [h.1]; simp)
          · exact h
  · rw [if_neg hj]
    have hj' : joinCondHolds ctx s.blocks req = false := by
      simpa using hj
    by_cases hstop : (stopRevisitedStart req s || stopNoSuccessors blk ||
        stopSaturated (getOrDefaultVisited req.currBB s.visited).1
          req.valueVersions ||
        selfDefFires req.valueVersions blk.insts) = true
    · rw [if_pos hstop]
      simp only [Bool.or_eq_true] at hstop
      constructor
      · intro _
        rcases hstop with ((ha | hb) | hc) | hd
        · exact Or.inl ha
        · exact Or.inr (Or.inl hb)
        · exact Or.inr (Or.inr (Or.inl hc))
        · exact Or.inr (Or.inr (Or.inr (Or.inr (Or.inr (Or.inl ⟨hj', hd⟩)))))
      · intro _
        rfl
    · rw [if_neg hstop]
      simp only [Bool.or_eq_true, not_or] at hstop
      obtain ⟨⟨⟨ha, hb⟩, hc⟩, hd⟩ := hstop
      rw [List.map_eq_nil_iff]
      constructor
      · intro hfil
        exact Or.inr (Or.inr (Or.inr (Or.inr (Or.inr (Or.inr hfil)))))
      · rintro (h | h | h | h | h | h | h)
        · exact absurd h ha
        · exact absurd h hb
        · exact absurd h hc
        · exact absurd h.1 hj
        · exact absurd h.1 hj
        · exact absurd h.2 hd
        · exact h

/-- Witness for the amended C2 at a concrete request: a dequeued request
on an exit block performs no enqueue. -/
theorem claim_C2_witness :
    (processUpdateRequest c2ctx
        ⟨20, 50, 10, 100, 200, [100, 200]⟩
        ⟨[⟨50, [], .ret, false⟩], [], 300⟩).2 = [] ↔
      (stopRevisitedStart ⟨20, 50, 10, 100, 200, [100, 200]⟩
          ⟨[⟨50, [], .ret, false⟩], [], 300⟩ = true ∨
       stopNoSuccessors ⟨50, [], .ret, false⟩ = true ∨
       stopSaturated (getOrDefaultVisited 50 []).1 [100, 200] = true ∨
       (joinCondHolds c2ctx [⟨50, [], .ret, false⟩]
          ⟨20, 50, 10, 100, 200, [100, 200]⟩ = true ∧
        isPhiInstExistForIncomingBBForTrackedVal [100, 200]
          ⟨50, [], .ret, false⟩ 10 = true) ∨
       (joinCondHolds c2ctx [⟨50, [], .ret, false⟩]
          ⟨20, 50, 10, 100, 200, [100, 200]⟩ = true ∧
        isPhiInstExistForIncomingBBForTrackedVal [100, 200]
          ⟨50, [], .ret, false⟩ 10 = false ∧
        selfDefFires (joinExtendedVersions [⟨50, [], .ret, false⟩]
          ⟨20, 50, 10, 100, 200, [100, 200]⟩) [] = true) ∨
       (joinCondHolds c2ctx [⟨50, [], .ret, false⟩]
          ⟨20, 50, 10, 100, 200, [100, 200]⟩ = false ∧
        selfDefFires [100, 200] [] = true) ∨
       (Blk.succs ⟨50, [], .ret, false⟩).filter (fun sb => !(sb = 50)) = []) :=
  claim_C2 c2ctx ⟨20, 50, 10, 100, 200, [100, 200]⟩
    ⟨[⟨50, [], .ret, false⟩], [], 300⟩ ⟨50, [], .ret, false⟩ (by decide)

/-- CFG for the C6 counterexample and witness: block 60 has predecessors
61 and 62 (the tracked value 100 is live-out of both, so 60 is a join
block), one successor 63, no phis, and one instruction using value 100. -/
def c6blocks : List Blk :=
  [⟨60, [.other 70 [.v 100]], .br 63, false⟩,
   ⟨61, [], .br 60, false⟩,
   ⟨62, [], .br 60, false⟩,
   ⟨63, [], .ret, false⟩]

def c6ctx : PropCtx :=
  { newBBs := [],
    funcLiveOut := [(61, [100]), (62, [100])],
    saveLiveOut := [],
    restoreLiveOut := [],
    junctionLiveOut := [],
    valTys := [(100, .i32)] }

def c6blk : Blk := ⟨60, [.other 70 [.v 100]], .br 63, false⟩

/-- Request revisiting its own start block 60 (marked visited), so stop
condition (a) holds. -/
def c6req : UpdateReq := ⟨60, 60, 61, 100, 200, [100, 200]⟩

def c6state : PropState := ⟨c6blocks, [(60, [100])], 300⟩

/-- C6 counterexample: on a join block with no matching phi, the claim
says a new phi is created and the successors are enqueued with it.  On
this concrete request the join conditions hold, no matching phi exists and
the successor set is non-empty — the new phi is created, but no successor
is enqueued, because the request revisits its start block (stop condition
(a)). -/
theorem claim_C6_counterexample :
    joinCondHolds c6ctx c6blocks c6req = true ∧
    isPhiInstExistForIncomingBBForTrackedVal [100, 200] c6blk 61 = false ∧
    c6blk.succs.filter (fun sb => !(sb = 60)) ≠ [] ∧
    (processUpdateRequest c6ctx c6req c6state).2 = [] ∧
    blockOf (processUpdateRequest c6ctx c6req c6state).1.blocks 60 =
      some ⟨60, [Inst.phi 300 .i32 [(61, .v 200), (62, .v 100)],
                 Inst.other 70 [.v 300]], .br 63, false⟩ := by
  decide

/-- C6 (amended): when the propagator processes a join block (at least two
predecessor edges, `oldVal` live-out in more than one of them, block not
newly created): if some phi already carries an incoming from `prevBlock`
whose value is in `valueVersions`, the block's phis are rewritten
(`setIncomingValueForBlock` to `newVal`) and no successors are enqueued;
otherwise a new phi is created at the top of the block with `newVal` from
`prevBlock` and `oldVal` from every other predecessor, uses of `oldVal` in
the block's other instructions are replaced by the new phi, and — provided
no stop condition fires — the successors other than the block itself are
enqueued with the new phi as `newVal`. -/
theorem claim_C6 (ctx : PropCtx) (req : UpdateReq) (s : PropState) (blk : Blk)
    (hblk : blockOf s.blocks req.currBB = some blk)
    (hjoin : joinCondHolds ctx s.blocks req = true) :
    (isPhiInstExistForIncomingBBForTrackedVal req.valueVersions blk
        req.prevBB = true →
      (processUpdateRequest ctx req s).2 = [] ∧
      (processUpdateRequest ctx req s).1.blocks =
        s.blocks.map (fun b =>
          if b.bid = req.currBB then
            { b with insts := (modifyLeadingPhis req.valueVersions req.prevBB
                req.newVal blk.insts).1 }
          else b)) ∧
    (isPhiInstExistForIncomingBBForTrackedVal req.valueVersions blk
        req.prevBB = false →
      (processUpdateRequest ctx req s).1.blocks =
        s.blocks.map (fun b =>
          if b.bid = req.currBB then
            { b with
              insts := Inst.phi s.fresh (phiTyOf ctx req.oldVal)
                  ((predEdges s.blocks req.currBB).map (fun p =>
                    (p, Opnd.v (if p = req.prevBB then req.newVal
                                else req.oldVal)))) ::
                blk.insts.map (replaceOperandsInInst req.oldVal s.fresh),
              term := replaceTermOperands req.oldVal s.fresh blk.term }
          else b) ∧
      ((stopRevisitedStart req s || stopNoSuccessors blk ||
        stopSaturated (getOrDefaultVisited req.currBB s.visited).1
          req.valueVersions ||
        selfDefFires (joinExtendedVersions s.blocks req) blk.insts) = false →
        (processUpdateRequest ctx req s).2 =
          (blk.succs.filter (fun sb => !(sb = req.currBB))).map (fun sb =>
            { startBB := req.startBB, currBB := sb, prevBB := req.currBB,
              oldVal := req.oldVal, newVal := s.fresh,
              valueVersions :=
                insertVal (joinExtendedVersions s.blocks req) s.fresh }))) := by
  constructor
  · intro hphi
    unfold processUpdateRequest
    rw [hblk]
    dsimp only
    rw [if_pos hjoin, if_pos hphi]
    exact ⟨rfl, rfl⟩
  · intro hphi
    unfold processUpdateRequest
    rw [hblk]
    dsimp only
    rw [if_pos hjoin, if_neg (by simp [hphi])]
    constructor
    · rfl
    · intro hstop
      rw [if_neg (by simp [hstop])]

/-- Witness for the amended C6: a fresh request on the same join block (no
stop condition firing) does enqueue the successor with the new phi. -/
theorem claim_C6_witness :
    (processUpdateRequest c6ctx ⟨99, 60, 61, 100, 200, [100, 200]⟩
        ⟨c6blocks, [], 300⟩).2 =
      (c6blk.succs.filter (fun sb => !(sb = 60))).map (fun sb =>
        { startBB := 99, currBB := sb, prevBB := 60,
          oldVal := 100, newVal := 300,
          valueVersions :=
            insertVal (joinExtendedVersions c6blocks
              ⟨99, 60, 61, 100, 200, [100, 200]⟩) 300 }) :=
  ((claim_C6 c6ctx ⟨99, 60, 61, 100, 200, [100, 200]⟩ ⟨c6blocks, [], 300⟩
      c6blk (by decide) (by decide)).2 (by decide)).2 (by decide)

/-- A function with two operands named `x` for C8: the first carries value
handle 1, the second value handle 2. -/
def c8blocks : List (List (List NamedOperand)) := [[[⟨"x", 1⟩, ⟨"x", 2⟩]]]

/-- C8 counterexample: on a name collision the binding of the
first-scanned operand survives, not the last — `std::map::emplace` never
overwrites.  Here operand `x` is scanned with handle 1 and then with
handle 2, and the map binds `x` to 1. -/
theorem claim_C8_counterexample :
    scanOrder c8blocks = [⟨"x", 1⟩, ⟨"x", 2⟩] ∧
    lookupName (getFuncValuePtrsMap c8blocks) "x" = some 1 := by
  decide

/-- C8 (amended): the inputs binder builds the name-to-value map by
scanning every operand of every instruction in every block, and when two
operands carry the same textual name the binding of the first-scanned
operand wins (`emplace` is a no-op on an existing key). -/
theorem claim_C8 (blocks : List (List (List NamedOperand))) (n : String) :
    lookupName (getFuncValuePtrsMap blocks) n =
      ((scanOrder blocks).find? (fun op => op.name = n)).map (·.vid) := by
  rw [getFuncValuePtrsMap_eq_buildNameMap, lookupName_buildNameMap]
  rfl

/-! ### Per-function pipeline of `SubroutineInjection::injectSubroutines`

The loop body of `injectSubroutines` (lines 823–1222) for one function:
linkage check, analysis-data check, `ckpt_mem` lookup, entry-successor
check, candidate selection, restore-controller split, the (break-limited)
per-checkpoint subroutine construction with marshalling and propagation,
checkpoint-id assignment and the dispatcher switch.  Fresh block and value
handles are drawn from explicit counters. -/

inductive Linkage
  | external
  | linkOnceODR
deriving DecidableEq, Repr

structure Fn where
  linkage : Linkage
  params : List (String × Nat)
  blocks : List Blk
deriving DecidableEq, Repr

/-- The `continue` exits of the per-function loop (each printed as a
warning in the source). -/
inductive SkipReason
  | linkOnce
  | noAnalysisData
  | noCkptMem
  | singleBlock
  | noCandidates
  | splitFailed
  | noCheckpoints
deriving DecidableEq, Repr

structure CheckpointTopo where
  checkpointBB : Nat
  saveBB : Nat
  restoreBB : Nat
  junctionBB : Nat
  resumeBB : Nat
deriving DecidableEq, Repr

structure InjectResult where
  fn : Fn
  skip : Option SkipReason
  topos : List CheckpointTopo
  idMap : List (Nat × CheckpointTopo)
  rcBid : Option Nat
  rcSucc : Option Nat
deriving DecidableEq, Repr

/-- Replace the first successor slot equal to `old` (the slot
`GetSuccessorNumber` finds) in a switch case list. -/
def replaceCaseFirst (old new : Nat) : List (Int × Nat) → List (Int × Nat)
  | [] => []
  | (i, t) :: rest =>
    if t = old then (i, new) :: rest else (i, t) :: replaceCaseFirst old new rest

/-- Redirect the first successor slot equal to `old` to `new`
(`SplitCriticalEdge` / `SplitBlock` rewiring of the split edge). -/
def replaceSuccFirst (old new : Nat) : Term → Term
  | .br d => .br (if d = old then new else d)
  | .condbr c t f =>
    if t = old then .condbr c new f else .condbr c t (if f = old then new else f)
  | .switch c d cs =>
    if d = old then .switch c new cs else .switch c d (replaceCaseFirst old new cs)
  | .ret => .ret

/-- `SubroutineInjection::splitEdgeWrapper`: insert a fresh block on the
edge `src → dst`; the new block has one predecessor and one successor.
Splitting fails (returns null) when the destination is a landing pad. -/
def splitEdgeWrapper (blocks : List Blk) (src dst newBid : Nat) :
    Option (List Blk) :=
  match blockOf blocks dst with
  | none => none
  | some d =>
    if d.isLandingPad then none
    else
      some ((blocks.map (fun b =>
        if b.bid = src then { b with term := replaceSuccFirst dst newBid b.term }
        else b)) ++ [⟨newBid, [], .br dst, false⟩])

structure Stage3Out where
  blocks : List Blk
  topos : List CheckpointTopo
  freshB : Nat
  freshV : Nat
deriving DecidableEq, Repr

/-- Step 3.4 for one tracked value: run the propagation worklist from the
resume block, with the junction block as predecessor and the junction phi
of the value as its new version. -/
def propagateOneVal (ctx : PropCtx) (fuel resumeBB junctionBB : Nat)
    (phiMap : List (Nat × Nat)) (st : List Blk × Nat) (v : TVal) :
    List Blk × Nat :=
  match (phiMap.find? (fun e => e.1 = v.vid)).map (·.2) with
  | none => st
  | some phiId =>
    let sF := bfsRun ctx fuel
      { prop := { blocks := st.1, visited := [], fresh := st.2 },
        queue := [{ startBB := resumeBB, currBB := resumeBB,
                    prevBB := junctionBB, oldVal := v.vid, newVal := phiId,
                    valueVersions := insertVal (insertVal [] v.vid) phiId }] }
    (sF.prop.blocks, sF.prop.fresh)

/-- Steps 3.1–3.4 for one successor edge of the checkpoint block: save
split, junction split, restore-block creation, marshalling, the
`IS_COMPLETE` store, and the per-tracked-value propagation.  A failed save
split skips the edge; a failed junction split leaves the save block in the
CFG (the source has a `TODO` to remove it) and installs no topology. -/
def processCheckpointSucc (fuel ckptMem : Nat) (trackedVals : List TVal)
    (liveData : List (Nat × List Nat)) (rcBid cbid : Nat)
    (acc : Stage3Out) (succBB : Nat) : Stage3Out :=
  match splitEdgeWrapper acc.blocks cbid succBB acc.freshB with
  | none => acc
  | some blocks1 =>
    let saveBB := acc.freshB
    let resumeBB := succBB
    match splitEdgeWrapper blocks1 saveBB resumeBB (acc.freshB + 1) with
    | none => { acc with blocks := blocks1, freshB := acc.freshB + 1 }
    | some blocks2 =>
      let junctionBB := acc.freshB + 1
      let restoreBB := acc.freshB + 2
      let blocks3 := blocks2 ++ [⟨restoreBB, [], .br junctionBB, false⟩]
      let topo : CheckpointTopo := ⟨cbid, saveBB, restoreBB, junctionBB, resumeBB⟩
      let mo := marshalAll ckptMem saveBB restoreBB trackedVals VALUES_START acc.freshV
      let ic := emitIsComplete ckptMem mo.fresh
      let blocks4 := blocks3.map (fun b =>
        if b.bid = saveBB then { b with insts := b.insts ++ mo.saveInsts ++ ic.1 }
        else if b.bid = restoreBB then { b with insts := b.insts ++ mo.restoreInsts }
        else if b.bid = junctionBB then { b with insts := b.insts ++ mo.junctionPhis }
        else b)
      let ctx : PropCtx :=
        { newBBs := [rcBid, saveBB, restoreBB, junctionBB],
          funcLiveOut := liveData,
          saveLiveOut := [(saveBB, trackedVals.map (·.vid))],
          restoreLiveOut := [(restoreBB, trackedVals.map (·.vid))],
          junctionLiveOut := [(junctionBB, trackedVals.map (·.vid))],
          valTys := trackedVals.map (fun v => (v.vid, v.ty)) }
      let afterProp := trackedVals.foldl
        (propagateOneVal ctx fuel resumeBB junctionBB mo.phiMap) (blocks4, ic.2)
      { blocks := afterProp.1, topos := acc.topos ++ [topo],
        freshB := acc.freshB + 3, freshV := afterProp.2 }

/-- Step 3 of `injectSubroutines`: the loop over the checkpoint blocks,
which `break`s unconditionally after its first iteration, processing each
successor of that one block. -/
def stage3 (fuel ckptMem : Nat) (bbCheckpoints : BBTrackedVals)
    (liveData : List (Nat × List Nat)) (rcBid : Nat) (candidates : List Nat)
    (blocks : List Blk) (freshB freshV : Nat) : Stage3Out :=
  match candidates with
  | [] => ⟨blocks, [], freshB, freshV⟩
  | cbid :: _ =>
    let succList :=
      match blockOf blocks cbid with
      | some b => b.succs
      | none => []
    let trackedVals :=
      match (bbCheckpoints.find? (fun e => e.1 = cbid)).map (·.2) with
      | some vs => vs
      | none => []
    succList.foldl
      (processCheckpointSucc fuel ckptMem trackedVals liveData rcBid cbid)
      ⟨blocks, [], freshB, freshV⟩

/-- `SubroutineInjection::getCheckpointIdBBMap`: assign ids starting at 1
(id 0 means no checkpoint saved); the counter is a `uint8_t` and the map
emplace drops an already-present key. -/
def getCheckpointIdBBMap (topos : List CheckpointTopo) :
    List (Nat × CheckpointTopo) :=
  (topos.foldl (fun (acc : List (Nat × CheckpointTopo) × Nat) t =>
    (if acc.1.any (fun e => e.1 = acc.2) then acc.1 else acc.1 ++ [(acc.2, t)],
     (acc.2 + 1) % 256)) ([], 1)).1

/-- Step 4: per checkpoint id, store the id at `CKPT_ID` in the save block
and emit the heartbeat increment (load, add 1, store at `HEARTBEAT`) in
both the save and the restore block. -/
def emitCkptIdAndHeartbeat (ckptMem : Nat) (idMap : List (Nat × CheckpointTopo))
    (blocks : List Blk) (freshV : Nat) : List Blk × Nat :=
  idMap.foldl (fun (st : List Blk × Nat) e =>
    let f := st.2
    let saveAdd : List Inst :=
      [.gep f (.v ckptMem) (.c CKPT_ID), .store (.c (Int.ofNat e.1)) (.v f),
       .gep (f+1) (.v ckptMem) (.c HEARTBEAT), .load (f+2) .i32 (.v (f+1)),
       .add (f+3) (.v (f+2)) (.c 1), .store (.v (f+3)) (.v (f+1))]
    let restoreAdd : List Inst :=
      [.gep (f+4) (.v ckptMem) (.c HEARTBEAT), .load (f+5) .i32 (.v (f+4)),
       .add (f+6) (.v (f+5)) (.c 1), .store (.v (f+6)) (.v (f+4))]
    (st.1.map (fun b =>
      if b.bid = e.2.saveBB then { b with insts := b.insts ++ saveAdd }
      else if b.bid = e.2.restoreBB then { b with insts := b.insts ++ restoreAdd }
      else b), f + 7)) (blocks, freshV)

/-- Step 5: load the checkpoint id from `gep(ckpt_mem, CKPT_ID)` before
the restore controller's terminator and replace the terminator by a switch
whose default target is `restoreControllerSuccessor` and whose cases map
each checkpoint id to its restore block. -/
def dispatcherUpdate (ckptMem rcBid rcSucc g l : Nat)
    (idMap : List (Nat × CheckpointTopo)) (b : Blk) : Blk :=
  if b.bid = rcBid then
    { b with
      insts := b.insts ++ [.gep g (.v ckptMem) (.c CKPT_ID),
                           .load l .i32 (.v g)],
      term := .switch (.v l) rcSucc
        (idMap.map (fun e => (Int.ofNat e.1, e.2.restoreBB))) }
  else b

def installDispatcherSwitch (ckptMem rcBid rcSucc : Nat)
    (idMap : List (Nat × CheckpointTopo)) (blocks : List Blk) (freshV : Nat) :
    List Blk × Nat :=
  (blocks.map (dispatcherUpdate ckptMem rcBid rcSucc freshV (freshV + 1) idMap),
   freshV + 2)

/-- The per-function body of `SubroutineInjection::injectSubroutines`.
`trackedData = none` models a function absent from the tracked-values
analysis results. -/
def injectForFunc (fuel freshB freshV : Nat) (fn : Fn)
    (trackedData : Option BBTrackedVals) (liveData : List (Nat × List Nat)) :
    InjectResult :=
  if fn.linkage = .linkOnceODR then ⟨fn, some .linkOnce, [], [], none, none⟩
  else
    match trackedData with
    | none => ⟨fn, some .noAnalysisData, [], [], none, none⟩
    | some bbTrackedVals =>
      match fn.params.find? (fun p => p.1 = "ckpt_mem") with
      | none => ⟨fn, some .noCkptMem, [], [], none, none⟩
      | some pr =>
        match fn.blocks with
        | [] => ⟨fn, some .singleBlock, [], [], none, none⟩
        | entry :: _ =>
          if entry.succs.length < 1 then
            ⟨fn, some .singleBlock, [], [], none, none⟩
          else
            let sel := selectCandidates fn.blocks bbTrackedVals
            if sel.1.length = 0 then
              ⟨{ fn with blocks := sel.2 }, some .noCandidates, [], [], none, none⟩
            else
              let succ0 :=
                match entry.succs with
                | s :: _ => s
                | [] => 0
              let candidates := (sel.2.filter (fun b =>
                sel.1.any (fun e => e.1 = b.bid))).map (·.bid)
              match splitEdgeWrapper sel.2 entry.bid succ0 freshB with
              | none =>
                ⟨{ fn with blocks := sel.2 }, some .splitFailed, [], [], none, none⟩
              | some blocks2 =>
                let s3 := stage3 fuel pr.2 sel.1 liveData freshB candidates
                  blocks2 (freshB + 1) freshV
                let idMap := getCheckpointIdBBMap s3.topos
                let s4 := emitCkptIdAndHeartbeat pr.2 idMap s3.blocks s3.freshV
                let s5 := installDispatcherSwitch pr.2 freshB succ0 idMap s4.1 s4.2
                if idMap.length = 0 then
                  ⟨{ fn with blocks := s5.1 }, some .noCheckpoints, s3.topos,
                   idMap, some freshB, some succ0⟩
                else
                  ⟨{ fn with blocks := s5.1 }, none, s3.topos, idMap,
                   some freshB, some succ0⟩

/-- C10: a function with `LinkOnceODR` linkage is skipped before any
analysis lookup or mutation: the pass returns it unchanged, with no
topologies, no ids and no dispatcher, regardless of the analysis data or
of any checkpoint directives it contains. -/
theorem claim_C10 (fuel freshB freshV : Nat) (fn : Fn)
    (td : Option BBTrackedVals) (ld : List (Nat × List Nat))
    (h : fn.linkage = .linkOnceODR) :
    injectForFunc fuel freshB freshV fn td ld =
      ⟨fn, some .linkOnce, [], [], none, none⟩ := by
  unfold injectForFunc
  rw [if_pos h]

/-- Witness for C10: a `LinkOnceODR` function that carries a checkpoint
directive, a `ckpt_mem` parameter and analysis data is returned
unchanged. -/
theorem claim_C10_witness :
    injectForFunc 5 100 200
      ⟨.linkOnceODR, [("ckpt_mem", 50)],
       [⟨0, [], .br 1, false⟩, ⟨1, [.call "checkpoint" []], .br 2, false⟩,
        ⟨2, [], .ret, false⟩]⟩
      (some [(0, []), (1, [⟨7, .i32⟩]), (2, [])]) [(1, [7])] =
      ⟨⟨.linkOnceODR, [("ckpt_mem", 50)],
        [⟨0, [], .br 1, false⟩, ⟨1, [.call "checkpoint" []], .br 2, false⟩,
         ⟨2, [], .ret, false⟩]⟩, some .linkOnce, [], [], none, none⟩ :=
  claim_C10 5 100 200 _ _ _ rfl

theorem choose_empty_blocks (blocks : List Blk) (m : BBTrackedVals)
    (h : (chooseBBWithCheckpointDirective blocks m).1 = []) :
    (chooseBBWithCheckpointDirective blocks m).2 = blocks := by
  induction blocks with
  | nil => rfl
  | cons b rest ih =>
    unfold chooseBBWithCheckpointDirective at h ⊢
    by_cases hc : b.insts.any isCheckpointCall
    · simp only [hc, if_true] at h ⊢
      cases hf : m.find? (fun e => e.1 = b.bid) with
      | some e =>
        simp only [hf] at h
        simp at h
      | none =>
        simp only [hf] at h ⊢
        rw [ih h]
    · simp only [hc, Bool.false_eq_true, if_false] at h ⊢
      rw [ih h]

/-- The function with a checkpoint directive whose restore-controller
split fails (the entry's successor, block 1, is a landing pad). -/
def c1fn : Fn :=
  ⟨.external, [("ckpt_mem", 0)],
   [⟨0, [], .br 1, false⟩, ⟨1, [], .br 2, true⟩,
    ⟨2, [.call "checkpoint_here" []], .br 1, false⟩]⟩

def c1tracked : BBTrackedVals := [(0, []), (1, []), (2, [⟨7, .i32⟩])]

/-- C1 counterexample: a function skipped because the restore-controller
edge split failed is *not* byte-identical to its input — the candidate
selector already erased the checkpoint-directive call from block 2. -/
theorem claim_C1_counterexample :
    (injectForFunc 5 100 200 c1fn (some c1tracked) []).skip =
      some .splitFailed ∧
    (injectForFunc 5 100 200 c1fn (some c1tracked) []).fn ≠ c1fn := by
  decide

/-- C1 (amended): a function skipped before the restore-controller split
— for `LinkOnceODR` linkage, missing analysis data, missing `ckpt_mem`
argument, a single-block body, or zero candidate blocks — is returned
byte-identical to its input.  (A function skipped because an edge split
failed or because zero checkpoints were installed may retain mutations:
the erased directive call, the split blocks and a zero-case dispatcher
switch.) -/
theorem claim_C1 (fuel freshB freshV : Nat) (fn : Fn) (td : Option BBTrackedVals)
    (ld : List (Nat × List Nat)) (r : SkipReason)
    (hin : (injectForFunc fuel freshB freshV fn td ld).skip = some r)
    (hr : r = .linkOnce ∨ r = .noAnalysisData ∨ r = .noCkptMem ∨
          r = .singleBlock ∨ r = .noCandidates) :
    (injectForFunc fuel freshB freshV fn td ld).fn = fn := by
  unfold injectForFunc at hin ⊢
  by_cases h1 : fn.linkage = .linkOnceODR
  · rw [if_pos h1]
  · rw [if_neg h1] at hin ⊢
    cases htd : td with
    | none => rfl
    | some m =>
      simp only [htd] at hin ⊢
      cases hp : fn.params.find? (fun p => p.1 = "ckpt_mem") with
      | none => rfl
      | some pr =>
        simp only [hp] at hin ⊢
        cases hbs : fn.blocks with
        | nil => rfl
        | cons entry restb =>
          simp only [hbs] at hin ⊢
          by_cases h2 : entry.succs.length < 1
          · rw [if_pos h2]
          · rw [if_neg h2] at hin ⊢
            by_cases h3 : (selectCandidates (entry :: restb) m).1.length = 0
            · rw [if_pos h3]
              have hsel1 : (selectCandidates (entry :: restb) m).1 = [] :=
                List.length_eq_zero.mp h3
              have hsel2 : (selectCandidates (entry :: restb) m).2 = entry :: restb := by
                unfold selectCandidates at hsel1 ⊢
                exact choose_empty_blocks (entry :: restb)
                  (filteredTrackedVals (entry :: restb) m) hsel1
              show ({ fn with blocks := (selectCandidates (entry :: restb) m).2 } : Fn) = fn
              rw [hsel2, ← hbs]
            · rw [if_neg h3] at hin
              exfalso
              rcases hsp : splitEdgeWrapper (selectCandidates (entry :: restb) m).2
                  entry.bid
                  (match entry.succs with | s :: _ => s | [] => 0) freshB with
                _ | blocks2
              · simp only [hsp] at hin
                simp only [Option.some.injEq] at hin
                rcases hr with h | h | h | h | h <;> subst h <;>
                  exact absurd hin (by decide)
              · simp only [hsp] at hin
                by_cases h4 : (getCheckpointIdBBMap (stage3 fuel pr.2
                    (selectCandidates (entry :: restb) m).1 ld freshB
                    (((selectCandidates (entry :: restb) m).2.filter (fun b =>
                      (selectCandidates (entry :: restb) m).1.any
                        (fun e => e.1 = b.bid))).map (·.bid))
                    blocks2 (freshB + 1) freshV).topos).length = 0
                · rw [if_pos h4] at hin
                  simp only [Option.some.injEq] at hin
                  rcases hr with h | h | h | h | h <;> subst h <;>
                    exact absurd hin (by decide)
                · rw [if_neg h4] at hin
                  simp at hin

/-- Witness for the amended C1: a function without a `ckpt_mem` argument
is skipped and returned unchanged. -/
theorem claim_C1_witness :
    (injectForFunc 5 100 200 ⟨.external, [("n", 3)],
        [⟨0, [], .br 1, false⟩, ⟨1, [.call "checkpoint" []], .br 2, false⟩,
         ⟨2, [], .ret, false⟩]⟩
      (some [(1, [⟨7, .i32⟩])]) []).fn =
      ⟨.external, [("n", 3)],
       [⟨0, [], .br 1, false⟩, ⟨1, [.call "checkpoint" []], .br 2, false⟩,
        ⟨2, [], .ret, false⟩]⟩ :=
  claim_C1 5 100 200 _ (some [(1, [⟨7, .i32⟩])]) [] .noCkptMem (by decide)
    (by decide)

theorem replaceCaseFirst_length (old new : Nat) (cs : List (Int × Nat)) :
    (replaceCaseFirst old new cs).length = cs.length := by
  induction cs with
  | nil => rfl
  | cons c rest ih =>
    unfold replaceCaseFirst
    by_cases h : c.2 = old
    · simp [h]
    · simp only [List.length_cons]
      rw [show (if c.2 = old then (c.1, new) :: rest
          else (c.1, c.2) :: replaceCaseFirst old new rest) =
          (c.1, c.2) :: replaceCaseFirst old new rest from by simp [h]]
      simp [ih]

theorem replaceSuccFirst_succs_length (old new : Nat) (t : Term) :
    (replaceSuccFirst old new t).succsOf.length = t.succsOf.length := by
  cases t with
  | br d =>
    unfold replaceSuccFirst
    by_cases h : d = old <;> simp [h, Term.succsOf]
  | condbr c tt ff =>
    unfold replaceSuccFirst
    by_cases h : tt = old
    · simp [h, Term.succsOf]
    · by_cases h2 : ff = old <;> simp [h, h2, Term.succsOf]
  | switch c d cs =>
    unfold replaceSuccFirst
    by_cases h : d = old
    · simp [h, Term.succsOf]
    · simp [h, Term.succsOf, replaceCaseFirst_length]
  | ret => rfl

theorem find?_map_bidpres (f : Blk → Blk) (hf : ∀ b, (f b).bid = b.bid)
    (blocks : List Blk) (k : Nat) :
    (blocks.map f).find? (fun b => b.bid = k) =
      (blocks.find? (fun b => b.bid = k)).map f := by
  induction blocks with
  | nil => rfl
  | cons b rest ih =>
    simp only [List.map_cons, List.find?_cons]
    rw [show decide ((f b).bid = k) = decide (b.bid = k) from by rw [hf]]
    cases h : decide (b.bid = k) with
    | true => rfl
    | false => exact ih

theorem blockOf_map_bidpres (f : Blk → Blk) (hf : ∀ b, (f b).bid = b.bid)
    (blocks : List Blk) (k : Nat) :
    blockOf (blocks.map f) k = (blockOf blocks k).map f :=
  find?_map_bidpres f hf blocks k

theorem blockOf_append_left (A B : List Blk) (k : Nat) (b : Blk)
    (h : blockOf A k = some b) : blockOf (A ++ B) k = some b := by
  unfold blockOf at h ⊢
  rw [List.find?_append, h]
  rfl

theorem blockOf_isSome_of_mem_bid (blocks : List Blk) (k : Nat)
    (h : k ∈ blocks.map (·.bid)) : (blockOf blocks k).isSome = true := by
  rw [List.mem_map] at h
  obtain ⟨b, hb, hk⟩ := h
  unfold blockOf
  rw [List.find?_isSome]
  exact ⟨b, hb, by simp [hk]⟩

/-- The per-block transformation `chooseBBWithCheckpointDirective` applies
(erase the first directive call iff the block is selected). -/
def chooseTransform (m : BBTrackedVals) (b : Blk) : Blk :=
  if (b.insts.any isCheckpointCall &&
      (m.find? (fun e => e.1 = b.bid)).isSome) = true
  then { b with insts := eraseFirstCheckpointCall b.insts }
  else b

theorem chooseTransform_bid (m : BBTrackedVals) (b : Blk) :
    (chooseTransform m b).bid = b.bid := by
  unfold chooseTransform
  split <;> rfl

theorem chooseTransform_term (m : BBTrackedVals) (b : Blk) :
    (chooseTransform m b).term = b.term := by
  unfold chooseTransform
  split <;> rfl

theorem choose_blocks_map (blocks : List Blk) (m : BBTrackedVals) :
    (chooseBBWithCheckpointDirective blocks m).2 = blocks.map (chooseTransform m) := by
  induction blocks with
  | nil => rfl
  | cons b rest ih =>
    unfold chooseBBWithCheckpointDirective
    simp only [List.map_cons]
    by_cases hc : b.insts.any isCheckpointCall
    · simp only [hc, if_true]
      cases hf : m.find? (fun e => e.1 = b.bid) with
      | some e =>
        simp only
        rw [ih]
        unfold chooseTransform
        rw [hf]
        simp [hc]
      | none =>
        simp only
        rw [ih]
        unfold chooseTransform
        rw [hf]
        simp
    · simp only [hc, Bool.false_eq_true, if_false]
      rw [ih]
      unfold chooseTransform
      simp [hc]

theorem choose_sel_sub (blocks : List Blk) (m : BBTrackedVals) :
    ∀ e ∈ (chooseBBWithCheckpointDirective blocks m).1, e ∈ m := by
  induction blocks with
  | nil =>
    intro e he
    simp [chooseBBWithCheckpointDirective] at he
  | cons b rest ih =>
    intro e he
    unfold chooseBBWithCheckpointDirective at he
    by_cases hc : b.insts.any isCheckpointCall
    · simp only [hc, if_true] at he
      cases hf : m.find? (fun x => x.1 = b.bid) with
      | some x =>
        rw [hf] at he
        simp only [List.mem_cons] at he
        rcases he with he | he
        · subst he
          exact List.mem_of_find?_eq_some hf
        · exact ih e he
      | none =>
        rw [hf] at he
        exact ih e he
    · simp only [hc, Bool.false_eq_true, if_false] at he
      exact ih e he

theorem filtered_mem_one_succ (blocks : List Blk) (m : BBTrackedVals) :
    ∀ e ∈ filteredTrackedVals blocks m,
      ∃ b, blockOf blocks e.1 = some b ∧ b.succs.length = 1 := by
  intro e he
  unfold filteredTrackedVals removeBBsWithNoTrackedVals at he
  have he2 := List.mem_of_mem_filter he
  unfold removeNestedPtrTrackedVals at he2
  rw [List.mem_map] at he2
  obtain ⟨e0, he0, hmap⟩ := he2
  unfold getBBsWithOneSuccessor at he0
  have hpred := List.of_mem_filter he0
  cases hbo : blockOf blocks e0.1 with
  | none =>
    rw [hbo] at hpred
    exact absurd hpred (by simp)
  | some b =>
    rw [hbo] at hpred
    refine ⟨b, ?_, by simpa using hpred⟩
    have : e.1 = e0.1 := by rw [← hmap]
    rw [this]
    exact hbo

theorem sel_one_succ (blocks : List Blk) (m : BBTrackedVals) :
    ∀ e ∈ (selectCandidates blocks m).1,
      ∃ b, blockOf blocks e.1 = some b ∧ b.succs.length = 1 := by
  intro e he
  exact filtered_mem_one_succ blocks m e
    (choose_sel_sub blocks (filteredTrackedVals blocks m) e he)

theorem map_update_bids (blocks : List Blk) (f : Blk → Blk)
    (hf : ∀ b, (f b).bid = b.bid) :
    (blocks.map f).map (·.bid) = blocks.map (·.bid) := by
  rw [List.map_map]
  exact List.map_congr_left (fun b _ => hf b)

theorem processUpdateRequest_bids (ctx : PropCtx) (r : UpdateReq)
    (s : PropState) :
    ((processUpdateRequest ctx r s).1.blocks).map (·.bid) =
      s.blocks.map (·.bid) := by
  unfold processUpdateRequest
  cases hb : blockOf s.blocks r.currBB with
  | none => rfl
  | some blk =>
    dsimp only
    by_cases hj : joinCondHolds ctx s.blocks r = true
    · rw [if_pos hj]
      by_cases hphi : isPhiInstExistForIncomingBBForTrackedVal r.valueVersions
          blk r.prevBB = true
      · rw [if_pos hphi]
        exact map_update_bids s.blocks _ (fun b => by split <;> rfl)
      · rw [if_neg hphi]
        exact map_update_bids s.blocks _ (fun b => by split <;> rfl)
    · rw [if_neg hj]
      exact map_update_bids s.blocks _ (fun b => by split <;> rfl)

theorem bfsStep_bids (ctx : PropCtx) (s : BFSState) :
    (bfsStep ctx s).prop.blocks.map (·.bid) = s.prop.blocks.map (·.bid) := by
  unfold bfsStep
  cases hq : s.queue with
  | nil => rfl
  | cons r rest => exact processUpdateRequest_bids ctx r s.prop

theorem bfsRun_bids (ctx : PropCtx) (fuel : Nat) (s : BFSState) :
    (bfsRun ctx fuel s).prop.blocks.map (·.bid) = s.prop.blocks.map (·.bid) := by
  induction fuel generalizing s with
  | zero => rfl
  | succ n ih =>
    rw [show bfsRun ctx (n + 1) s = bfsRun ctx n (bfsStep ctx s) from rfl]
    rw [ih (bfsStep ctx s), bfsStep_bids]

theorem propagateOneVal_bids (ctx : PropCtx) (fuel resumeBB junctionBB : Nat)
    (phiMap : List (Nat × Nat)) (st : List Blk × Nat) (v : TVal) :
    (propagateOneVal ctx fuel resumeBB junctionBB phiMap st v).1.map (·.bid) =
      st.1.map (·.bid) := by
  unfold propagateOneVal
  cases h : (phiMap.find? (fun e => e.1 = v.vid)).map (·.2) with
  | none => rfl
  | some phiId => exact bfsRun_bids ctx fuel _

theorem foldPropagate_bids (ctx : PropCtx) (fuel resumeBB junctionBB : Nat)
    (phiMap : List (Nat × Nat)) (vals : List TVal) (st : List Blk × Nat) :
    (vals.foldl (propagateOneVal ctx fuel resumeBB junctionBB phiMap) st).1.map
      (·.bid) = st.1.map (·.bid) := by
  induction vals generalizing st with
  | nil => rfl
  | cons v rest ih =>
    rw [List.foldl_cons, ih, propagateOneVal_bids]

theorem splitEdge_some_shape (blocks : List Blk) (src dst nb : Nat)
    (bl : List Blk) (h : splitEdgeWrapper blocks src dst nb = some bl) :
    bl = (blocks.map (fun b =>
      if b.bid = src then { b with term := replaceSuccFirst dst nb b.term }
      else b)) ++ [⟨nb, [], .br dst, false⟩] := by
  unfold splitEdgeWrapper at h
  revert h
  cases hd : blockOf blocks dst with
  | none => intro h; cases h
  | some d =>
    intro h
    simp only at h
    by_cases hl : d.isLandingPad = true
    · rw [if_pos hl] at h; cases h
    · rw [if_neg hl] at h
      exact (Option.some.inj h).symm

theorem mem_bids_split (blocks : List Blk) (src dst nb : Nat) (bl : List Blk)
    (h : splitEdgeWrapper blocks src dst nb = some bl) (k : Nat)
    (hk : k ∈ blocks.map (·.bid)) : k ∈ bl.map (·.bid) := by
  rw [splitEdge_some_shape blocks src dst nb bl h]
  rw [List.map_append, List.mem_append]
  left
  rw [map_update_bids blocks _ (fun b => by split <;> rfl)]
  exact hk

theorem processCheckpointSucc_mem_bid (fuel ckptMem : Nat)
    (trackedVals : List TVal) (liveData : List (Nat × List Nat))
    (rcBid cbid : Nat) (acc : Stage3Out) (succBB : Nat) (k : Nat)
    (hk : k ∈ acc.blocks.map (·.bid)) :
    k ∈ (processCheckpointSucc fuel ckptMem trackedVals liveData rcBid cbid
      acc succBB).blocks.map (·.bid) := by
  unfold processCheckpointSucc
  cases h1 : splitEdgeWrapper acc.blocks cbid succBB acc.freshB with
  | none => exact hk
  | some blocks1 =>
    dsimp only
    have hk1 : k ∈ blocks1.map (·.bid) :=
      mem_bids_split acc.blocks cbid succBB acc.freshB blocks1 h1 k hk
    cases h2 : splitEdgeWrapper blocks1 acc.freshB succBB (acc.freshB + 1) with
    | none => exact hk1
    | some blocks2 =>
      have hk2 : k ∈ blocks2.map (·.bid) :=
        mem_bids_split blocks1 acc.freshB succBB (acc.freshB + 1) blocks2 h2 k hk1
      dsimp only
      rw [foldPropagate_bids]
      rw [map_update_bids _ _ (fun b => by split <;> (try split) <;>
        (try split) <;> rfl)]
      rw [List.map_append, List.mem_append]
      left
      exact hk2

theorem stage3_mem_bid (fuel ckptMem : Nat) (bbC : BBTrackedVals)
    (liveData : List (Nat × List Nat)) (rcBid : Nat) (candidates : List Nat)
    (blocks : List Blk) (fB fV : Nat) (k : Nat)
    (hk : k ∈ blocks.map (·.bid)) :
    k ∈ (stage3 fuel ckptMem bbC liveData rcBid candidates blocks fB fV).blocks.map
      (·.bid) := by
  unfold stage3
  cases candidates with
  | nil => exact hk
  | cons cbid rest =>
    dsimp only
    generalize hsl : (match blockOf blocks cbid with
      | some b => b.succs
      | none => []) = succList
    generalize htv : (match (bbC.find? (fun e => e.1 = cbid)).map (·.2) with
      | some vs => vs
      | none => []) = tv
    have : ∀ (sl : List Nat) (acc : Stage3Out), k ∈ acc.blocks.map (·.bid) →
        k ∈ (sl.foldl (processCheckpointSucc fuel ckptMem tv liveData rcBid cbid)
          acc).blocks.map (·.bid) := by
      intro sl
      induction sl with
      | nil => intro acc h; exact h
      | cons sb sl ih =>
        intro acc h
        rw [List.foldl_cons]
        exact ih _ (processCheckpointSucc_mem_bid fuel ckptMem tv liveData rcBid
          cbid acc sb k h)
    exact this succList ⟨blocks, [], fB, fV⟩ hk

theorem foldl_bids_aux {A : Type} (f : (List Blk × Nat) → A → (List Blk × Nat))
    (hf : ∀ st a, ((f st a).1).map (·.bid) = st.1.map (·.bid)) :
    ∀ (l : List A) (st : List Blk × Nat),
      (l.foldl f st).1.map (·.bid) = st.1.map (·.bid) := by
  intro l
  induction l with
  | nil => intro st; rfl
  | cons a l ih =>
    intro st
    rw [List.foldl_cons, ih (f st a), hf st a]

theorem emitCkptIdAndHeartbeat_bids (ckptMem : Nat)
    (idMap : List (Nat × CheckpointTopo)) (blocks : List Blk) (fV : Nat) :
    (emitCkptIdAndHeartbeat ckptMem idMap blocks fV).1.map (·.bid) =
      blocks.map (·.bid) := by
  unfold emitCkptIdAndHeartbeat
  exact foldl_bids_aux _ (fun st e =>
    map_update_bids st.1 _ (fun b => by split <;> (try split) <;> rfl))
    idMap (blocks, fV)

theorem processCheckpointSucc_topos (fuel ckptMem : Nat) (tv : List TVal)
    (ld : List (Nat × List Nat)) (rcBid cbid : Nat) (acc : Stage3Out)
    (succBB : Nat) :
    (processCheckpointSucc fuel ckptMem tv ld rcBid cbid acc succBB).topos =
      acc.topos ∨
    (processCheckpointSucc fuel ckptMem tv ld rcBid cbid acc succBB).topos =
      acc.topos ++
        [⟨cbid, acc.freshB, acc.freshB + 2, acc.freshB + 1, succBB⟩] := by
  unfold processCheckpointSucc
  cases h1 : splitEdgeWrapper acc.blocks cbid succBB acc.freshB with
  | none => left; rfl
  | some blocks1 =>
    dsimp only
    cases h2 : splitEdgeWrapper blocks1 acc.freshB succBB (acc.freshB + 1) with
    | none => left; rfl
    | some blocks2 => right; rfl

theorem fold_pcs_topos_len (fuel ckptMem : Nat) (tv : List TVal)
    (ld : List (Nat × List Nat)) (rcBid cbid : Nat) :
    ∀ (l : List Nat) (acc : Stage3Out),
      ((l.foldl (processCheckpointSucc fuel ckptMem tv ld rcBid cbid)
        acc).topos).length ≤ acc.topos.length + l.length := by
  intro l
  induction l with
  | nil => intro acc; simp
  | cons s l ih =>
    intro acc
    rw [List.foldl_cons]
    have h := ih (processCheckpointSucc fuel ckptMem tv ld rcBid cbid acc s)
    rcases processCheckpointSucc_topos fuel ckptMem tv ld rcBid cbid acc s
      with he | he
    · rw [he] at h
      simp only [List.length_cons]
      omega
    · rw [he] at h
      simp only [List.length_append, List.length_cons, List.length_nil] at h
      simp only [List.length_cons]
      omega

theorem fold_pcs_topos_cbid (fuel ckptMem : Nat) (tv : List TVal)
    (ld : List (Nat × List Nat)) (rcBid cbid : Nat) :
    ∀ (l : List Nat) (acc : Stage3Out),
      ∀ t ∈ (l.foldl (processCheckpointSucc fuel ckptMem tv ld rcBid cbid)
        acc).topos, t ∈ acc.topos ∨ t.checkpointBB = cbid := by
  intro l
  induction l with
  | nil => intro acc t ht; left; exact ht
  | cons s l ih =>
    intro acc t ht
    rw [List.foldl_cons] at ht
    rcases ih (processCheckpointSucc fuel ckptMem tv ld rcBid cbid acc s) t ht
      with h | h
    · rcases processCheckpointSucc_topos fuel ckptMem tv ld rcBid cbid acc s
        with he | he
      · rw [he] at h; left; exact h
      · rw [he] at h
        rw [List.mem_append] at h
        rcases h with h | h
        · left; exact h
        · right
          rw [List.mem_singleton] at h
          rw [h]
    · right; exact h

theorem stage3_topos (fuel ckptMem : Nat) (bbC : BBTrackedVals)
    (ld : List (Nat × List Nat)) (rcBid cbid : Nat) (rest : List Nat)
    (blocks : List Blk) (fB fV : Nat) (b : Blk)
    (hb : blockOf blocks cbid = some b) (hs : b.succs.length = 1) :
    (stage3 fuel ckptMem bbC ld rcBid (cbid :: rest) blocks fB fV).topos.length
      ≤ 1 ∧
    ∀ t ∈ (stage3 fuel ckptMem bbC ld rcBid (cbid :: rest) blocks
      fB fV).topos, t.checkpointBB = cbid := by
  unfold stage3
  simp only [hb]
  constructor
  · refine le_trans (fold_pcs_topos_len fuel ckptMem _ ld rcBid cbid b.succs
      ⟨blocks, [], fB, fV⟩) ?_
    simp [hs]
  · intro t ht
    rcases fold_pcs_topos_cbid fuel ckptMem _ ld rcBid cbid b.succs
      ⟨blocks, [], fB, fV⟩ t ht with h | h
    · exact absurd h (List.not_mem_nil t)
    · exact h

theorem getCheckpointIdBBMap_singleton (t : CheckpointTopo) :
    getCheckpointIdBBMap [t] = [(1, t)] := rfl

theorem idMap_len_le_one (topos : List CheckpointTopo)
    (h : topos.length ≤ 1) :
    (getCheckpointIdBBMap topos).length ≤ 1 := by
  rcases topos with _ | ⟨t, _ | ⟨t2, r⟩⟩
  · exact Nat.zero_le 1
  · rw [getCheckpointIdBBMap_singleton]
    exact Nat.le_refl 1
  · exfalso
    simp only [List.length_cons] at h
    omega

/-- The candidate-block-id list `bbsWithCheckpointDirective` mapped to ids
(the list the per-checkpoint loop iterates over). -/
def candidateBids (blocks : List Blk) (m : BBTrackedVals) : List Nat :=
  ((selectCandidates blocks m).2.filter (fun b =>
    (selectCandidates blocks m).1.any (fun e => e.1 = b.bid))).map (·.bid)

theorem candidate_head_one_succ (blocks : List Blk) (m : BBTrackedVals)
    (cbid : Nat) (rest : List Nat)
    (hc : candidateBids blocks m = cbid :: rest) :
    ∃ b, blockOf blocks cbid = some b ∧ b.succs.length = 1 := by
  unfold candidateBids at hc
  cases hf : (selectCandidates blocks m).2.filter (fun b =>
      (selectCandidates blocks m).1.any (fun e => e.1 = b.bid)) with
  | nil =>
    rw [hf] at hc
    simp at hc
  | cons b0 r0 =>
    rw [hf] at hc
    simp only [List.map_cons, List.cons.injEq] at hc
    have hmem : b0 ∈ (selectCandidates blocks m).2.filter (fun b =>
        (selectCandidates blocks m).1.any (fun e => e.1 = b.bid)) := by
      rw [hf]; exact List.mem_cons_self b0 r0
    have hp := List.of_mem_filter hmem
    rw [List.any_eq_true] at hp
    obtain ⟨e, he, hdec⟩ := hp
    rw [decide_eq_true_eq] at hdec
    obtain ⟨b, hb, hs⟩ := sel_one_succ blocks m e he
    rw [hdec, hc.1] at hb
    exact ⟨b, hb, hs⟩

theorem sel2_one_succ (blocks : List Blk) (m : BBTrackedVals) (cbid : Nat)
    (b : Blk) (hb : blockOf blocks cbid = some b) (hs : b.succs.length = 1) :
    ∃ b1, blockOf (selectCandidates blocks m).2 cbid = some b1 ∧
      b1.succs.length = 1 := by
  unfold selectCandidates
  rw [choose_blocks_map, blockOf_map_bidpres _
    (chooseTransform_bid (filteredTrackedVals blocks m)), hb]
  refine ⟨_, rfl, ?_⟩
  show (chooseTransform (filteredTrackedVals blocks m) b).succs.length = 1
  unfold Blk.succs
  rw [chooseTransform_term]
  exact hs

theorem split_preserves_one_succ (blocks : List Blk) (src dst nb cbid : Nat)
    (bl : List Blk) (hsp : splitEdgeWrapper blocks src dst nb = some bl)
    (b : Blk) (hb : blockOf blocks cbid = some b) (hs : b.succs.length = 1) :
    ∃ b2, blockOf bl cbid = some b2 ∧ b2.succs.length = 1 := by
  rw [splitEdge_some_shape blocks src dst nb bl hsp]
  have hg : ∀ x : Blk, ((fun c =>
      if c.bid = src then { c with term := replaceSuccFirst dst nb c.term }
      else c) x).bid = x.bid := fun x => by
    show (if x.bid = src then
      ({ x with term := replaceSuccFirst dst nb x.term } : Blk) else x).bid = x.bid
    split <;> rfl
  have h1 : blockOf (blocks.map (fun c =>
      if c.bid = src then { c with term := replaceSuccFirst dst nb c.term }
      else c)) cbid = some (if b.bid = src then
        { b with term := replaceSuccFirst dst nb b.term } else b) := by
    rw [blockOf_map_bidpres _ hg, hb]
    rfl
  refine ⟨_, blockOf_append_left _ _ _ _ h1, ?_⟩
  by_cases hbsrc : b.bid = src
  · rw [if_pos hbsrc]
    show (replaceSuccFirst dst nb b.term).succsOf.length = 1
    rw [replaceSuccFirst_succs_length]
    exact hs
  · rw [if_neg hbsrc]
    exact hs

/-- A function on which the pipeline succeeds end to end: external
linkage, a `ckpt_mem` parameter, one tracked value live at the single
checkpoint-directive block. -/
def okFn : Fn :=
  ⟨.external, [("ckpt_mem", 50)],
   [⟨0, [], .br 1, false⟩, ⟨1, [.call "checkpoint" []], .br 2, false⟩,
    ⟨2, [], .ret, false⟩]⟩

def okTracked : BBTrackedVals := [(0, []), (1, [⟨7, .i32⟩]), (2, [])]

/-- C9: the per-checkpoint loop of `injectSubroutines` breaks
unconditionally after its first iteration, and the selected block has
exactly one successor, so at most one `CheckpointTopo` is installed, the
checkpoint-id map has at most one entry, and every installed topology
belongs to the first block (in iteration order) of the candidate list. -/
theorem claim_C9 (fuel freshB freshV : Nat) (fn : Fn)
    (td : Option BBTrackedVals) (ld : List (Nat × List Nat)) :
    (injectForFunc fuel freshB freshV fn td ld).topos.length ≤ 1 ∧
    (injectForFunc fuel freshB freshV fn td ld).idMap.length ≤ 1 ∧
    ∀ m, td = some m →
      ∀ t ∈ (injectForFunc fuel freshB freshV fn td ld).topos,
        (candidateBids fn.blocks m).head? = some t.checkpointBB := by
  unfold injectForFunc
  by_cases h1 : fn.linkage = .linkOnceODR
  · rw [if_pos h1]
    exact ⟨Nat.zero_le 1, Nat.zero_le 1,
      fun m hm t ht => absurd ht (List.not_mem_nil t)⟩
  · rw [if_neg h1]
    cases htd : td with
    | none =>
      exact ⟨Nat.zero_le 1, Nat.zero_le 1,
        fun m hm t ht => absurd ht (List.not_mem_nil t)⟩
    | some m =>
      dsimp only
      cases hp : fn.params.find? (fun p => p.1 = "ckpt_mem") with
      | none =>
        exact ⟨Nat.zero_le 1, Nat.zero_le 1,
          fun m' hm t ht => absurd ht (List.not_mem_nil t)⟩
      | some pr =>
        dsimp only
        cases hbs : fn.blocks with
        | nil =>
          exact ⟨Nat.zero_le 1, Nat.zero_le 1,
            fun m' hm t ht => absurd ht (List.not_mem_nil t)⟩
        | cons entry restb =>
          dsimp only
          by_cases h2 : entry.succs.length < 1
          · rw [if_pos h2]
            exact ⟨Nat.zero_le 1, Nat.zero_le 1,
              fun m' hm t ht => absurd ht (List.not_mem_nil t)⟩
          · rw [if_neg h2]
            by_cases h3 : (selectCandidates (entry :: restb) m).1.length = 0
            · rw [if_pos h3]
              exact ⟨Nat.zero_le 1, Nat.zero_le 1,
                fun m' hm t ht => absurd ht (List.not_mem_nil t)⟩
            · rw [if_neg h3]
              cases hsp : splitEdgeWrapper (selectCandidates (entry :: restb) m).2
                  entry.bid
                  (match entry.succs with | s :: _ => s | [] => 0) freshB with
              | none =>
                exact ⟨Nat.zero_le 1, Nat.zero_le 1,
                  fun m' hm t ht => absurd ht (List.not_mem_nil t)⟩
              | some blocks2 =>
                dsimp only
                cases hcand : ((selectCandidates (entry :: restb) m).2.filter
                    (fun b => (selectCandidates (entry :: restb) m).1.any
                      (fun e => e.1 = b.bid))).map (·.bid) with
                | nil =>
                  refine ⟨?_, ?_, ?_⟩ <;>
                    · split <;> simp [stage3, getCheckpointIdBBMap]
                | cons cbid rest2 =>
                  have hcb : candidateBids (entry :: restb) m = cbid :: rest2 := by
                    unfold candidateBids
                    exact hcand
                  obtain ⟨b, hb, hs⟩ :=
                    candidate_head_one_succ (entry :: restb) m cbid rest2 hcb
                  obtain ⟨b1, hb1, hs1⟩ :=
                    sel2_one_succ (entry :: restb) m cbid b hb hs
                  obtain ⟨b2, hb2, hs2⟩ := split_preserves_one_succ
                    (selectCandidates (entry :: restb) m).2 entry.bid
                    (match entry.succs with | s :: _ => s | [] => 0) freshB
                    cbid blocks2 hsp b1 hb1 hs1
                  have hstage := stage3_topos fuel pr.2
                    (selectCandidates (entry :: restb) m).1 ld freshB cbid
                    rest2 blocks2 (freshB + 1) freshV b2 hb2 hs2
                  by_cases h4 : (getCheckpointIdBBMap (stage3 fuel pr.2
                      (selectCandidates (entry :: restb) m).1 ld freshB
                      (cbid :: rest2) blocks2 (freshB + 1) freshV).topos).length
                      = 0
                  · rw [if_pos h4]
                    refine ⟨hstage.1, idMap_len_le_one _ hstage.1, ?_⟩
                    intro m' hm t ht
                    cases Option.some.inj hm
                    rw [hcb, List.head?_cons, hstage.2 t ht]
                  · rw [if_neg h4]
                    refine ⟨hstage.1, idMap_len_le_one _ hstage.1, ?_⟩
                    intro m' hm t ht
                    cases Option.some.inj hm
                    rw [hcb, List.head?_cons, hstage.2 t ht]

/-- Witness for C9 on a function where a checkpoint is actually
installed: exactly one topology, one id, and its block heads the
candidate list. -/
theorem claim_C9_witness :
    (injectForFunc 10 100 200 okFn (some okTracked) [(1, [7])]).topos.length
      ≤ 1 ∧
    (injectForFunc 10 100 200 okFn (some okTracked) [(1, [7])]).idMap.length
      ≤ 1 ∧
    (candidateBids okFn.blocks okTracked).head? =
      some ((⟨1, 101, 103, 102, 2⟩ : CheckpointTopo).checkpointBB) :=
  ⟨(claim_C9 10 100 200 okFn (some okTracked) [(1, [7])]).1,
   (claim_C9 10 100 200 okFn (some okTracked) [(1, [7])]).2.1,
   (claim_C9 10 100 200 okFn (some okTracked) [(1, [7])]).2.2 okTracked rfl
     ⟨1, 101, 103, 102, 2⟩ (by decide)⟩

theorem dispatcherUpdate_bid (c rc rs g l : Nat)
    (im : List (Nat × CheckpointTopo)) (b : Blk) :
    (dispatcherUpdate c rc rs g l im b).bid = b.bid := by
  unfold dispatcherUpdate
  split <;> rfl

theorem dispatcherUpdate_pos (c rc rs g l : Nat)
    (im : List (Nat × CheckpointTopo)) (b : Blk) (h : b.bid = rc) :
    dispatcherUpdate c rc rs g l im b =
      { b with
        insts := b.insts ++ [.gep g (.v c) (.c CKPT_ID), .load l .i32 (.v g)],
        term := .switch (.v l) rs
          (im.map (fun e => (Int.ofNat e.1, e.2.restoreBB))) } := by
  unfold dispatcherUpdate
  rw [if_pos h]

theorem installDispatcherSwitch_fst (c rc rs : Nat)
    (im : List (Nat × CheckpointTopo)) (bl : List Blk) (fv : Nat) :
    (installDispatcherSwitch c rc rs im bl fv).1 =
      bl.map (dispatcherUpdate c rc rs fv (fv + 1) im) := rfl

/-- C7: when the pass succeeds on a function, the restore controller's
terminator is a switch on the value loaded from `gep(ckpt_mem, CKPT_ID)`
(the gep/load pair appended right before the terminator), the default
target is the original first successor of the entry block, the case list
maps each assigned id (consecutive integers from 1) to its checkpoint's
restore block, and the number of cases equals the number of installed
topologies. -/
theorem claim_C7 (fuel freshB freshV : Nat) (fn : Fn)
    (td : Option BBTrackedVals) (ld : List (Nat × List Nat))
    (hok : (injectForFunc fuel freshB freshV fn td ld).skip = none) :
    ∃ pr rcB succ0 blk pre g,
      fn.params.find? (fun p => p.1 = "ckpt_mem") = some pr ∧
      (injectForFunc fuel freshB freshV fn td ld).rcBid = some rcB ∧
      (injectForFunc fuel freshB freshV fn td ld).rcSucc = some succ0 ∧
      (∀ e rest, fn.blocks = e :: rest → e.succs.head? = some succ0) ∧
      blockOf (injectForFunc fuel freshB freshV fn td ld).fn.blocks rcB =
        some blk ∧
      blk.insts = pre ++ [.gep g (.v pr.2) (.c CKPT_ID),
        .load (g + 1) .i32 (.v g)] ∧
      blk.term = .switch (.v (g + 1)) succ0
        ((injectForFunc fuel freshB freshV fn td ld).idMap.map
          (fun e => (Int.ofNat e.1, e.2.restoreBB))) ∧
      (injectForFunc fuel freshB freshV fn td ld).idMap.map (·.1) =
        List.range' 1
          (injectForFunc fuel freshB freshV fn td ld).idMap.length ∧
      ((injectForFunc fuel freshB freshV fn td ld).idMap.map
        (fun e => (Int.ofNat e.1, e.2.restoreBB))).length =
        (injectForFunc fuel freshB freshV fn td ld).topos.length ∧
      ∀ e ∈ (injectForFunc fuel freshB freshV fn td ld).idMap,
        e.2 ∈ (injectForFunc fuel freshB freshV fn td ld).topos := by
  unfold injectForFunc at hok ⊢
  by_cases h1 : fn.linkage = .linkOnceODR
  · rw [if_pos h1] at hok
    simp at hok
  · rw [if_neg h1] at hok ⊢
    cases htd : td with
    | none =>
      rw [htd] at hok
      simp at hok
    | some m =>
      rw [htd] at hok
      dsimp only at hok ⊢
      cases hp : fn.params.find? (fun p => p.1 = "ckpt_mem") with
      | none =>
        rw [hp] at hok
        simp at hok
      | some pr =>
        rw [hp] at hok
        dsimp only at hok ⊢
        cases hbs : fn.blocks with
        | nil =>
          rw [hbs] at hok
          simp at hok
        | cons entry restb =>
          rw [hbs] at hok
          dsimp only at hok ⊢
          by_cases h2 : entry.succs.length < 1
          · rw [if_pos h2] at hok
            simp at hok
          · rw [if_neg h2] at hok ⊢
            by_cases h3 : (selectCandidates (entry :: restb) m).1.length = 0
            · rw [if_pos h3] at hok
              simp at hok
            · rw [if_neg h3] at hok ⊢
              cases hsp : splitEdgeWrapper (selectCandidates (entry :: restb) m).2
                  entry.bid
                  (match entry.succs with | s :: _ => s | [] => 0) freshB with
              | none =>
                rw [hsp] at hok
                simp at hok
              | some blocks2 =>
                rw [hsp] at hok
                dsimp only at hok ⊢
                cases hcand : ((selectCandidates (entry :: restb) m).2.filter
                    (fun b => (selectCandidates (entry :: restb) m).1.any
                      (fun e => e.1 = b.bid))).map (·.bid) with
                | nil =>
                  rw [hcand] at hok
                  simp [stage3, getCheckpointIdBBMap] at hok
                | cons cbid rest2 =>
                  rw [hcand] at hok
                  by_cases h4 : (getCheckpointIdBBMap (stage3 fuel pr.2
                      (selectCandidates (entry :: restb) m).1 ld freshB
                      (cbid :: rest2) blocks2 (freshB + 1) freshV).topos).length
                      = 0
                  · rw [if_pos h4] at hok
                    simp at hok
                  · rw [if_neg h4] at hok ⊢
                    clear hok
                    have hcb : candidateBids (entry :: restb) m =
                        cbid :: rest2 := by
                      unfold candidateBids
                      exact hcand
                    obtain ⟨b, hb, hs⟩ :=
                      candidate_head_one_succ (entry :: restb) m cbid rest2 hcb
                    obtain ⟨b1, hb1, hs1⟩ :=
                      sel2_one_succ (entry :: restb) m cbid b hb hs
                    obtain ⟨b2, hb2, hs2⟩ := split_preserves_one_succ
                      (selectCandidates (entry :: restb) m).2 entry.bid
                      (match entry.succs with | s :: _ => s | [] => 0) freshB
                      cbid blocks2 hsp b1 hb1 hs1
                    have hstage := stage3_topos fuel pr.2
                      (selectCandidates (entry :: restb) m).1 ld freshB cbid
                      rest2 blocks2 (freshB + 1) freshV b2 hb2 hs2
                    cases hT : (stage3 fuel pr.2
                        (selectCandidates (entry :: restb) m).1 ld freshB
                        (cbid :: rest2) blocks2 (freshB + 1) freshV).topos with
                    | nil =>
                      exfalso
                      rw [hT] at h4
                      exact h4 rfl
                    | cons t ttail =>
                      cases ttail with
                      | cons t2 tt2 =>
                        exfalso
                        have hlen := hstage.1
                        rw [hT] at hlen
                        simp only [List.length_cons] at hlen
                        omega
                      | nil =>
                        rw [getCheckpointIdBBMap_singleton]
                        have hfb2 : freshB ∈ blocks2.map (·.bid) := by
                          rw [splitEdge_some_shape _ _ _ _ _ hsp]
                          rw [List.map_append, List.mem_append]
                          right
                          simp
                        have hfb3 := stage3_mem_bid fuel pr.2
                          (selectCandidates (entry :: restb) m).1 ld freshB
                          (cbid :: rest2) blocks2 (freshB + 1) freshV freshB hfb2
                        have hfb4 : freshB ∈ ((emitCkptIdAndHeartbeat pr.2
                            [(1, t)]
                            (stage3 fuel pr.2
                              (selectCandidates (entry :: restb) m).1 ld freshB
                              (cbid :: rest2) blocks2 (freshB + 1) freshV).blocks
                            (stage3 fuel pr.2
                              (selectCandidates (entry :: restb) m).1 ld freshB
                              (cbid :: rest2) blocks2 (freshB + 1)
                              freshV).freshV).1).map (·.bid) := by
                          rw [emitCkptIdAndHeartbeat_bids]
                          exact hfb3
                        obtain ⟨bb, hbb⟩ := Option.isSome_iff_exists.mp
                          (blockOf_isSome_of_mem_bid _ freshB hfb4)
                        have hbid : bb.bid = freshB := by
                          unfold blockOf at hbb
                          have hfs := List.find?_some hbb
                          simpa using hfs
                        cases hes : entry.succs with
                        | nil =>
                          exfalso
                          rw [hes] at h2
                          exact h2 (by decide)
                        | cons s0 stl =>
                          dsimp only
                          generalize hB : (emitCkptIdAndHeartbeat pr.2 [(1, t)]
                            (stage3 fuel pr.2
                              (selectCandidates (entry :: restb) m).1 ld freshB
                              (cbid :: rest2) blocks2 (freshB + 1) freshV).blocks
                            (stage3 fuel pr.2
                              (selectCandidates (entry :: restb) m).1 ld freshB
                              (cbid :: rest2) blocks2 (freshB + 1)
                              freshV).freshV).1 = BL
                          rw [hB] at hbb
                          generalize (emitCkptIdAndHeartbeat pr.2 [(1, t)]
                            (stage3 fuel pr.2
                              (selectCandidates (entry :: restb) m).1 ld freshB
                              (cbid :: rest2) blocks2 (freshB + 1) freshV).blocks
                            (stage3 fuel pr.2
                              (selectCandidates (entry :: restb) m).1 ld freshB
                              (cbid :: rest2) blocks2 (freshB + 1)
                              freshV).freshV).2 = G
                          have hblk : blockOf
                              ((installDispatcherSwitch pr.2 freshB s0 [(1, t)]
                                BL G).1) freshB =
                              some { bb with
                                insts := bb.insts ++
                                  [.gep G (.v pr.2) (.c CKPT_ID),
                                   .load (G + 1) .i32 (.v G)],
                                term := .switch (.v (G + 1)) s0
                                  ([(1, t)].map
                                    (fun e => (Int.ofNat e.1, e.2.restoreBB))) } := by
                            rw [installDispatcherSwitch_fst,
                              blockOf_map_bidpres _
                                (dispatcherUpdate_bid pr.2 freshB s0 G (G + 1)
                                  [(1, t)]),
                              hbb, Option.map_some',
                              dispatcherUpdate_pos _ _ _ _ _ _ _ hbid]
                          refine ⟨pr, freshB, s0, _, bb.insts, G, rfl, rfl, rfl,
                            ?_, hblk, rfl, rfl, rfl, rfl, ?_⟩
                          · intro e rest h2c
                            injection h2c with he hr
                            subst he
                            rw [hes]
                            rfl
                          · intro e he
                            have he2 : e = (1, t) := by simpa using he
                            rw [he2]
                            simp

/-- Witness for C7: on the success scenario the skip is `none` and the
dispatcher-switch conclusion holds. -/
theorem claim_C7_witness :
    (injectForFunc 10 100 200 okFn (some okTracked) [(1, [7])]).skip = none ∧
    (∃ pr rcB succ0 blk pre g,
      okFn.params.find? (fun p => p.1 = "ckpt_mem") = some pr ∧
      (injectForFunc 10 100 200 okFn (some okTracked) [(1, [7])]).rcBid =
        some rcB ∧
      (injectForFunc 10 100 200 okFn (some okTracked) [(1, [7])]).rcSucc =
        some succ0 ∧
      (∀ e rest, okFn.blocks = e :: rest → e.succs.head? = some succ0) ∧
      blockOf (injectForFunc 10 100 200 okFn (some okTracked)
        [(1, [7])]).fn.blocks rcB = some blk ∧
      blk.insts = pre ++ [.gep g (.v pr.2) (.c CKPT_ID),
        .load (g + 1) .i32 (.v g)] ∧
      blk.term = .switch (.v (g + 1)) succ0
        ((injectForFunc 10 100 200 okFn (some okTracked) [(1, [7])]).idMap.map
          (fun e => (Int.ofNat e.1, e.2.restoreBB))) ∧
      (injectForFunc 10 100 200 okFn (some okTracked) [(1, [7])]).idMap.map
          (·.1) =
        List.range' 1
          (injectForFunc 10 100 200 okFn (some okTracked)
            [(1, [7])]).idMap.length ∧
      ((injectForFunc 10 100 200 okFn (some okTracked) [(1, [7])]).idMap.map
        (fun e => (Int.ofNat e.1, e.2.restoreBB))).length =
        (injectForFunc 10 100 200 okFn (some okTracked)
          [(1, [7])]).topos.length ∧
      ∀ e ∈ (injectForFunc 10 100 200 okFn (some okTracked) [(1, [7])]).idMap,
        e.2 ∈ (injectForFunc 10 100 200 okFn (some okTracked)
          [(1, [7])]).topos) :=
  ⟨by decide, claim_C7 10 100 200 okFn (some okTracked) [(1, [7])] (by decide)⟩

end CkptPass
